import Mathlib

/-!
# IslandCowriePricer: a shallow embedding of `app.js`

The definitions below follow `src/app.js` function by function.

Modelling conventions
* A JavaScript number is a `Num`: `NaN`, `+Infinity`, `-Infinity`, or a finite
  value held as a whole number of units of `2^-1074`, the smallest positive
  double, of which every finite double is a whole multiple.  The operators `-`
  and `/` round their exact result to the nearest double, ties to even, and
  overflow to an infinity, as IEEE 754 binary64 does.  The sign of zero is not
  modelled.
* A JavaScript value coming out of `JSON.parse` is a `Val`.  Property reads are
  reads of own data properties of plain objects; members inherited from
  `Object.prototype` and the exotic properties of strings and arrays are not
  modelled.
* Item ids and world ids are the non-negative integers the upstream API sends.
* `Map` and `Set` are association lists and lists in insertion order.
* An `await`ed request is an input of the step function that models the
  asynchronous routine (`FetchOutcome`).
-/

namespace CowriePricer

/-! ## JavaScript values -/

/-- A JavaScript number; a finite one is `units * 2^-1074`. -/
inductive Num where
  | fin (units : ℤ)
  | nan
  | posInf
  | negInf
  deriving DecidableEq

namespace Num

/-- The number of units in 1: `2^1074`. -/
def unitsPerOne : ℕ := 2 ^ 1074

/-- The first magnitude that overflows, `2^1024`, in units. -/
def overflowUnits : ℕ := 2 ^ 2098

/-- The bound `2^53` of a 53-bit significand. -/
def significandLimit : ℕ := 9007199254740992

/-- The distance between neighbouring doubles around `n` units, with `fuel`
halvings allowed: 1 below `2^53` units, doubling with every further binary
digit. -/
def spacingAux : ℕ → ℕ → ℕ
  | 0, _ => 1
  | fuel + 1, n => if n < significandLimit then 1 else 2 * spacingAux fuel (n / 2)

/-- The distance, in units, between neighbouring doubles around `n` units. -/
def spacing (n : ℕ) : ℕ := spacingAux n n

/-- The finite doubles among the whole numbers of units: at most 53 significant
binary digits, below the overflow bound. -/
def IsDouble (u : ℤ) : Prop :=
  spacing u.natAbs ∣ u.natAbs ∧ u.natAbs < overflowUnits

/-- The magnitude `num / den` units rounded to a 53-bit significand, to the
nearest and on a tie to the even significand. -/
def roundNearestEven (num den : ℕ) : ℕ :=
  let s := spacing (num / den)
  let k := num / (den * s)
  let r := num % (den * s)
  let k1 :=
    if 2 * r < den * s then k
    else if den * s < 2 * r then k + 1
    else if k % 2 = 0 then k else k + 1
  k1 * s

/-- The double nearest to the magnitude `num / den` units with the given sign,
an infinity when the rounded magnitude overflows. -/
def ofMagnitude (negative : Bool) (num den : ℕ) : Num :=
  let u := roundNearestEven num den
  if overflowUnits ≤ u then (if negative then negInf else posInf)
  else fin (if negative then -(u : ℤ) else (u : ℤ))

/-- The double nearest to the rational `p / q`: the value of a number literal. -/
def ofRatio (p : ℤ) (q : ℕ) : Num :=
  ofMagnitude (decide (p < 0)) (p.natAbs * unitsPerOne) q

/-- The double nearest to an integer. -/
def ofInt (z : ℤ) : Num := ofRatio z 1

/-- The subtraction `a - b` of two numbers. -/
def sub : Num → Num → Num
  | fin a, fin b => ofMagnitude (decide (a - b < 0)) (a - b).natAbs 1
  | nan, _ => nan
  | _, nan => nan
  | posInf, posInf => nan
  | negInf, negInf => nan
  | posInf, _ => posInf
  | negInf, _ => negInf
  | fin _, posInf => negInf
  | fin _, negInf => posInf

/-- The division `a / b` of two numbers. -/
def div : Num → Num → Num
  | fin a, fin b =>
    if b ≠ 0 then
      ofMagnitude (decide (a < 0) != decide (b < 0)) (a.natAbs * unitsPerOne) b.natAbs
    else if a = 0 then nan
    else if 0 < a then posInf else negInf
  | nan, _ => nan
  | _, nan => nan
  | fin _, posInf => fin 0
  | fin _, negInf => fin 0
  | posInf, fin b => if 0 ≤ b then posInf else negInf
  | negInf, fin b => if 0 ≤ b then negInf else posInf
  | posInf, posInf => nan
  | posInf, negInf => nan
  | negInf, posInf => nan
  | negInf, negInf => nan

/-- The test `a > 0`. -/
def gtZero : Num → Bool
  | fin u => decide (0 < u)
  | posInf => true
  | _ => false

/-- The test `a >= 0`. -/
def geZero : Num → Bool
  | fin u => decide (0 ≤ u)
  | posInf => true
  | _ => false

end Num

/-- A JavaScript value as produced by `JSON.parse` (plus `undefined`). -/
inductive Val where
  | undefined
  | null
  | bool (b : Bool)
  | num (n : Num)
  | str (s : String)
  | arr (items : List Val)
  | obj (fields : List (String × Val))

namespace Val

/-- The test `Number.isFinite(v)`: `v` is a number and it is finite. -/
def isFinite : Val → Bool
  | num (.fin _) => true
  | _ => false

/-- The truthiness of a value, `ToBoolean`. -/
def truthy : Val → Bool
  | undefined => false
  | null => false
  | bool b => b
  | num (.fin u) => decide (u ≠ 0)
  | num .nan => false
  | num _ => true
  | str s => decide (s ≠ "")
  | arr _ => true
  | obj _ => true

/-- Whether a value is `null` or `undefined`. -/
def isNullish : Val → Bool
  | undefined => true
  | null => true
  | _ => false

/-- The read `v[key]` of an own data property; `undefined` when there is none. -/
def getProp : Val → String → Val
  | obj fields, key => (fields.lookup key).getD undefined
  | _, _ => undefined

/-- The optional read `v?.[key]`. -/
def optGet (v : Val) (key : String) : Val :=
  if v.isNullish then undefined else v.getProp key

/-- The nullish coalescing `v ?? d`. -/
def orElse (v d : Val) : Val :=
  if v.isNullish then d else v

/-- The expression `a - b`; it is only evaluated on numbers. -/
def sub : Val → Val → Val
  | num a, num b => num (a.sub b)
  | _, _ => num .nan

/-- The expression `a / b`; it is only evaluated on numbers. -/
def div : Val → Val → Val
  | num a, num b => num (a.div b)
  | _, _ => num .nan

/-- The test `a > 0`; it is only evaluated on numbers. -/
def gtZero : Val → Bool
  | num a => a.gtZero
  | _ => false

/-- The test `a >= 0`; it is only evaluated on numbers. -/
def geZero : Val → Bool
  | num a => a.geZero
  | _ => false

end Val

/-! ## Rows and derived values -/

/-- A base row `{ id, name, buy, v }` as built by `run`. -/
structure Row where
  id : Nat
  name : String
  buy : Val
  v : Val

/-- The result `{ srcVal, profit, factor }` of `computeDerived`. -/
structure Derived where
  srcVal : Val
  profit : Val
  factor : Val

/-- The selected metric `row.v?.[scope]?.[sourceKey] ?? null`. -/
def selectedMetric (row : Row) (sourceKey scope : String) : Val :=
  ((row.v.optGet scope).optGet sourceKey).orElse .null

/-- The function `computeDerived(row, sourceKey, scope)`. -/
def computeDerived (row : Row) (sourceKey scope : String) : Derived :=
  let srcVal := selectedMetric row sourceKey scope
  let buy := row.buy
  let validBuy := buy.isFinite && buy.gtZero
  let profit := if srcVal.isFinite && buy.isFinite then srcVal.sub buy else Val.null
  let factor := if srcVal.isFinite && validBuy then srcVal.div buy else Val.null
  { srcVal := srcVal, profit := profit, factor := factor }

/-- A derived row `{ ...r, ...computeDerived(r, sourceKey, scope) }`. -/
structure DerivedRow where
  id : Nat
  name : String
  buy : Val
  v : Val
  srcVal : Val
  profit : Val
  factor : Val

/-- The spread `{ ...r, ...computeDerived(r, sourceKey, scope) }` of `render`. -/
def deriveRow (sourceKey scope : String) (r : Row) : DerivedRow :=
  let d := computeDerived r sourceKey scope
  { id := r.id, name := r.name, buy := r.buy, v := r.v,
    srcVal := d.srcVal, profit := d.profit, factor := d.factor }

/-! ## Building the rows (`run`) -/

/-- The function `pick(obj, scope, field)`. -/
def pick (obj : Val) (scope field : String) : Val :=
  if !obj.truthy then Val.null
  else
    let src := (obj.optGet scope).orElse Val.null
    if src.truthy then (src.getProp field).orElse Val.null else Val.null

/-- A catalog entry of `ITEM_DATA`, declared as `{buy:number, name:string}`;
either member may be missing. -/
structure ItemMeta where
  buy : Val
  name : Option String

/-- The catalog `ITEM_DATA`, keyed by the item id written as a string. -/
abbrev Catalog := List (String × ItemMeta)

/-- One entry of `data.results`: its `itemId` and its `nq` member
(`Val.undefined` when absent). -/
structure Entry where
  itemId : Nat
  nq : Val

/-- The property key `String(id)` of an item id. -/
def idKey (id : Nat) : String := toString id

/-- The scopes `['world', 'dc', 'region']`. -/
def scopes : List String := ["world", "dc", "region"]

/-- The body of the `map` callback of `run`: one base row for one entry. -/
def buildRow (ITEM_DATA : Catalog) (r : Entry) : Row :=
  let id := r.itemId
  let meta := (ITEM_DATA.lookup (idKey id)).orElse fun _ => ITEM_DATA.lookup (idKey id)
  let metaBuy : Val := match meta with
    | some m => m.buy
    | none => Val.undefined
  let buy := if metaBuy.isFinite && metaBuy.geZero then metaBuy else Val.null
  let name := match meta.bind (fun m => m.name) with
    | some s => if s ≠ "" then s else "Item " ++ idKey id
    | none => "Item " ++ idKey id
  let minObj := r.nq.optGet "minListing"
  let recentObj := r.nq.optGet "recentPurchase"
  let avgObj := r.nq.optGet "averageSalePrice"
  let velObj := r.nq.optGet "dailySaleVelocity"
  let v := Val.obj (scopes.map fun s =>
    (s, Val.obj [("min", pick minObj s "price"),
                 ("recent", pick recentObj s "price"),
                 ("avg", pick avgObj s "price"),
                 ("vel", pick velObj s "quantity")]))
  { id := id, name := name, buy := buy, v := v }

/-- The expression `(data.results || []).map(...)` of `run`. -/
def buildRows (ITEM_DATA : Catalog) (results : Option (List Entry)) : List Row :=
  (results.getD []).map (buildRow ITEM_DATA)

/-! ## Sorting (`render`) -/

namespace Val

/-- The number held by a value; it is only read after `Number.isFinite`. -/
def asNum : Val → Num
  | num n => n
  | _ => Num.nan

end Val

/-- The strict inequality `a !== b` of two numbers. -/
def Num.strictNe : Num → Num → Bool
  | .nan, _ => true
  | _, .nan => true
  | a, b => decide (a ≠ b)

/-- The inner function `getKey` of the sort callback. -/
def getKey (sortMode : String) (r : DerivedRow) : Val :=
  if sortMode = "profit" then r.profit else r.factor

/-- The number `Number.isFinite(av) ? av : -Infinity` of the sort callback. -/
def keyNum (sortMode : String) (r : DerivedRow) : Num :=
  let av := getKey sortMode r
  if av.isFinite then av.asNum else Num.negInf

/-- The comparison callback that `render` passes to `rows.sort`;
`localeCompare` is the host's `String.prototype.localeCompare`. -/
def comparator (localeCompare : String → String → Int) (sortMode : String)
    (a b : DerivedRow) : Num :=
  let an := keyNum sortMode a
  let bn := keyNum sortMode b
  if bn.strictNe an then bn.sub an
  else Num.ofInt (localeCompare a.name b.name)

/-- The method `Array.prototype.sort(cmp)`: a stable sort in which `a` may stay
in front of `b` unless `cmp(a, b) > 0`.  Stable insertion realises it. -/
def arraySort {α : Type} (cmp : α → α → Num) (l : List α) : List α :=
  l.insertionSort (fun a b => (cmp a b).gtZero = false)

/-- The value `el.value || dflt` of a control. -/
def valueOr (value dflt : String) : String :=
  if value = "" then dflt else value

/-- The rows of `render` after `rows.sort(...)`. -/
def sortedRows (localeCompare : String → String → Int)
    (sourceKey scope sortMode : String) (baseRows : List Row) : List DerivedRow :=
  arraySort (comparator localeCompare sortMode) (baseRows.map (deriveRow sourceKey scope))

/-! ## JavaScript `Map` -/

/-- The keys of a `Map` in insertion order. -/
def mapKeys {β : Type} (m : List (Nat × β)) : List Nat := m.map Prod.fst

/-- The method `Map.prototype.get`. -/
def mapGet {β : Type} (m : List (Nat × β)) (k : Nat) : Option β := m.lookup k

/-- The method `Map.prototype.set`: an existing key keeps its place, a new key
goes to the end. -/
def mapSet {β : Type} (m : List (Nat × β)) (k : Nat) (v : β) : List (Nat × β) :=
  if k ∈ mapKeys m then m.map (fun e => if e.1 = k then (k, v) else e)
  else m ++ [(k, v)]

/-- The method `Map.prototype.delete`. -/
def mapDelete {β : Type} (m : List (Nat × β)) (k : Nat) : List (Nat × β) :=
  m.filter (fun e => decide (e.1 ≠ k))

/-! ## Application state and reconciliation (`render`) -/

/-- The mutable state of the page.  A DOM node is named by the number of the
`document.createElement('li')` call that made it (`nextNode` counts them); the
record stored in `refsById` is named by the `li` whose children it holds. -/
structure AppState where
  ITEM_DATA : Catalog
  baseRows : List Row
  nodeById : List (Nat × Nat)
  refsById : List (Nat × Nat)
  nextNode : Nat
  resultsChildren : List Nat
  status : String
  datacenterValue : String
  sourceValue : String
  scopeValue : String
  sortValue : String
  controlsDisabled : Bool
  ctrlActive : Bool

/-- The part of the state the two loops of `render` work on, with a record of
the `nodeById.delete` calls (`destroyed`) and of the `buildRowNode` calls
(`created`), by item id. -/
structure Handles where
  nodeById : List (Nat × Nat)
  refsById : List (Nat × Nat)
  nextNode : Nat
  resultsChildren : List Nat
  frag : List Nat
  created : List Nat
  destroyed : List Nat

/-- One turn of the cleanup loop of `render`, for the entry `[id, li]`. -/
def cleanupStep (currentIds : List Nat) (h : Handles) (e : Nat × Nat) : Handles :=
  if e.1 ∈ currentIds then h
  else
    { h with
      resultsChildren := h.resultsChildren.erase e.2
      nodeById := mapDelete h.nodeById e.1
      refsById := mapDelete h.refsById e.1
      destroyed := h.destroyed ++ [e.1] }

/-- The function `buildRowNode(row)`: a new `li`, registered in `refsById`. -/
def buildRowNode (h : Handles) (row : DerivedRow) : Nat × Handles :=
  let li := h.nextNode
  (li, { h with
         nextNode := h.nextNode + 1
         refsById := mapSet h.refsById row.id li
         created := h.created ++ [row.id] })

/-- The method `frag.appendChild(li)`: a node already in the fragment moves to
its end. -/
def appendChild (frag : List Nat) (li : Nat) : List Nat :=
  frag.erase li ++ [li]

/-- One turn of `rows.forEach` in `render`.  The call `updateRowNode` only
rewrites the text of the handle's children and is not represented. -/
def placeStep (h : Handles) (row : DerivedRow) : Handles :=
  match mapGet h.nodeById row.id with
  | some li => { h with frag := appendChild h.frag li }
  | none =>
    let (li, h1) := buildRowNode h row
    let h2 := { h1 with nodeById := mapSet h1.nodeById row.id li }
    { h2 with frag := appendChild h2.frag li }

/-- What one call of `render` leaves: the next state and the ids of the handles
it created and destroyed. -/
structure RenderResult where
  state : AppState
  created : List Nat
  destroyed : List Nat

/-- The two loops of `render` on the sorted rows: the cleanup of the handles of
the items no longer present, then `rows.forEach`. -/
def reconcile (st : AppState) (rows : List DerivedRow) : Handles :=
  let currentIds := rows.map (fun r => r.id)
  let h0 : Handles :=
    { nodeById := st.nodeById, refsById := st.refsById, nextNode := st.nextNode,
      resultsChildren := st.resultsChildren, frag := [], created := [], destroyed := [] }
  let h1 := st.nodeById.foldl (cleanupStep currentIds) h0
  rows.foldl placeStep h1

/-- The function `render()`; its last statement `results.replaceChildren(frag)`
makes the fragment the displayed list. -/
def render (localeCompare : String → String → Int) (st : AppState) : RenderResult :=
  let sourceKey := valueOr st.sourceValue "min"
  let scope := valueOr st.scopeValue "world"
  let sortMode := valueOr st.sortValue "factor"
  let rows := sortedRows localeCompare sourceKey scope sortMode st.baseRows
  let h2 := reconcile st rows
  { state :=
      { st with
        nodeById := h2.nodeById
        refsById := h2.refsById
        nextNode := h2.nextNode
        resultsChildren := h2.frag }
    created := h2.created
    destroyed := h2.destroyed }

/-! ## Fetching (`run`) -/

/-- How the awaited request of `run` ends. -/
inductive FetchOutcome where
  | rejected (message : String)
  | httpError (status : Nat)
  | ok (results : Option (List Entry))

/-- The function `run()`, given how its request ends: `rejected` is a rejected
`fetch` or `res.json()` (network error, abort, timeout), or any exception thrown
before `baseRows` is assigned, with its `err.message`; `httpError` is a response
that is not `ok`; `ok` carries the `results` member of the parsed body. -/
def run (localeCompare : String → String → Int) (st : AppState)
    (outcome : FetchOutcome) : AppState :=
  let st1 :=
    { st with
      resultsChildren := []
      status := "Fetching..."
      ctrlActive := true
      controlsDisabled := true }
  let st2 :=
    match outcome with
    | FetchOutcome.ok results =>
      let st3 := { st1 with baseRows := buildRows st1.ITEM_DATA results }
      let st4 := (render localeCompare st3).state
      { st4 with
        status := "Fetched " ++ toString st4.baseRows.length ++ " items from "
          ++ valueOr st4.datacenterValue "Faerie" }
    | FetchOutcome.httpError code =>
      { st1 with status := "Error: " ++ ("HTTP " ++ toString code) }
    | FetchOutcome.rejected message =>
      { st1 with status := "Error: " ++ message }
  { st2 with ctrlActive := false, controlsDisabled := false }

/-! ## The directory (`loadDirectory`) -/

/-- An element of the `/data-centers` array; any member may be missing. -/
structure Datacenter where
  name : Option String
  region : Option String
  worlds : Option (List Nat)

/-- An element of the `/worlds` array. -/
structure World where
  id : Nat
  name : Option String

/-- The truthiness of a possibly missing string. -/
def truthyStr : Option String → Bool
  | some s => decide (s ≠ "")
  | none => false

/-- The map `new Map(worldArr.map((w) => [w.id, w.name]))`. -/
def worldByIdMap (worldArr : List World) : List (Nat × Option String) :=
  worldArr.foldl (fun m w => mapSet m w.id w.name) []

/-- The local variables of the loop of `loadDirectory`. -/
structure DirAcc where
  seenRegion : List String
  seenDC : List String
  seenWorld : List String
  out : List String

/-- The statement `if (x && !seen.has(x)) { seen.add(x); out.push(x) }` for the
region of a datacenter. -/
def emitRegion (acc : DirAcc) (x : Option String) : DirAcc :=
  match x with
  | some s =>
    if truthyStr (some s) && !(acc.seenRegion.contains s) then
      { acc with seenRegion := acc.seenRegion ++ [s], out := acc.out ++ [s] }
    else acc
  | none => acc

/-- The same statement for the name of a datacenter. -/
def emitDC (acc : DirAcc) (x : Option String) : DirAcc :=
  match x with
  | some s =>
    if truthyStr (some s) && !(acc.seenDC.contains s) then
      { acc with seenDC := acc.seenDC ++ [s], out := acc.out ++ [s] }
    else acc
  | none => acc

/-- The body of the inner loop over `dc.worlds || []`. -/
def emitWorld (worldById : List (Nat × Option String)) (acc : DirAcc) (wid : Nat) : DirAcc :=
  match (mapGet worldById wid).join with
  | some s =>
    if truthyStr (some s) && !(acc.seenWorld.contains s) then
      { acc with seenWorld := acc.seenWorld ++ [s], out := acc.out ++ [s] }
    else acc
  | none => acc

/-- The body of the loop `for (const dc of dcArr)`. -/
def directoryStep (worldById : List (Nat × Option String)) (acc : DirAcc)
    (dc : Datacenter) : DirAcc :=
  let acc1 := emitRegion acc dc.region
  let acc2 := emitDC acc1 dc.name
  (dc.worlds.getD []).foldl (emitWorld worldById) acc2

/-- The list `out` that `loadDirectory` assigns to `DIRECTORY` when both
requests succeed. -/
def loadDirectory (dcArr : List Datacenter) (worldArr : List World) : List String :=
  let worldById := worldByIdMap worldArr
  let acc0 : DirAcc := { seenRegion := [], seenDC := [], seenWorld := [], out := [] }
  (dcArr.foldl (directoryStep worldById) acc0).out


/-- The invariant of the handle maps that `render` keeps (both maps start
empty): a `Map` holds a key once, and `refsById` has the keys of `nodeById`. -/
def HandlesInv (st : AppState) : Prop :=
  (mapKeys st.nodeById).Nodup ∧ mapKeys st.refsById = mapKeys st.nodeById

/-! ## The order of the sort -/

/-- What ECMAScript requires of `localeCompare`: a consistent comparison, whose
sign flips when the arguments are swapped and whose `≤ 0` is transitive. -/
structure ConsistentCompare (lc : String → String → Int) : Prop where
  antisymm : ∀ a b, lc a b < 0 ↔ 0 < lc b a
  trans : ∀ a b c, lc a b ≤ 0 → lc b c ≤ 0 → lc a c ≤ 0

/-- A derived metric as a sort key, in the words of the specification: a missing
(null or non-finite) value counts as negative infinity `⊥`. -/
def finiteKey : Val → WithBot ℤ
  | Val.num (Num.fin u) => (u : WithBot ℤ)
  | _ => ⊥

/-- The sort key in the words of the specification: the profit in sort mode
`profit`, the factor otherwise. -/
def sortKey (sortMode : String) (r : DerivedRow) : WithBot ℤ :=
  if sortMode = "profit" then finiteKey r.profit else finiteKey r.factor

/-- A sample `localeCompare`: the comparison of the code point sequences. -/
def codePointCompare (a b : String) : Int :=
  if a.toList < b.toList then -1 else if a.toList = b.toList then 0 else 1

/-- The order `Array.prototype.sort` reads off the callback: `a` may stay in
front of `b`. -/
abbrev rowLe (lc : String → String → Int) (sortMode : String) (a b : DerivedRow) : Prop :=
  (comparator lc sortMode a b).gtZero = false

/-! ## The directory in the words of the specification -/

/-- What a name of the directory was discovered as. -/
inductive NameKind where
  | region
  | datacenter
  | world
  deriving DecidableEq

/-- The names one datacenter contributes, in the order of the specification:
its region, its own name, then the names of its resolvable worlds. -/
def discoveredIn (worldById : List (Nat × Option String)) (dc : Datacenter) :
    List (NameKind × String) :=
  (match dc.region with
    | some s => if s ≠ "" then [(NameKind.region, s)] else []
    | none => []) ++
  (match dc.name with
    | some s => if s ≠ "" then [(NameKind.datacenter, s)] else []
    | none => []) ++
  (dc.worlds.getD []).flatMap (fun wid =>
    match (mapGet worldById wid).join with
    | some s => if s ≠ "" then [(NameKind.world, s)] else []
    | none => [])

/-- Every name discovered while scanning the datacenters in response order. -/
def discovered (worldById : List (Nat × Option String)) (dcArr : List Datacenter) :
    List (NameKind × String) :=
  dcArr.flatMap (discoveredIn worldById)

/-- The items of `l` not yet in `seen`, added to `seen` in first-seen order. -/
def firstSeenFrom {α : Type} [DecidableEq α] (seen l : List α) : List α :=
  l.foldl (fun acc x => if x ∈ acc then acc else acc ++ [x]) seen

/-- The distinct items of a list in the order of their first occurrence. -/
def firstOccurrences {α : Type} [DecidableEq α] (l : List α) : List α :=
  firstSeenFrom [] l

/-- The loop variables of `loadDirectory` agree with the names seen so far. -/
structure DirInv (acc : DirAcc) (t : List (NameKind × String)) : Prop where
  out : acc.out = t.map Prod.snd
  region : ∀ s, s ∈ acc.seenRegion ↔ (NameKind.region, s) ∈ t
  datacenter : ∀ s, s ∈ acc.seenDC ↔ (NameKind.datacenter, s) ∈ t
  world : ∀ s, s ∈ acc.seenWorld ↔ (NameKind.world, s) ∈ t

/-! ## Example data -/

/-- A base row whose only metric is `v.world.min`. -/
def exampleRow (id : Nat) (name : String) (buy metric : Val) : Row :=
  { id := id, name := name, buy := buy,
    v := Val.obj [("world", Val.obj [("min", metric)])] }

/-- An integer of magnitude below `2^53` as a value; it is a double exactly. -/
def finVal (z : ℤ) : Val := Val.num (Num.fin (z * (Num.unitsPerOne : ℤ)))

/-- The number literal `p / q` as a value. -/
def ratioVal (p : ℤ) (q : ℕ) : Val := Val.num (Num.ofRatio p q)

/-- A base row of cost 100 whose twelve metrics are all different. -/
def tableRow : Row :=
  { id := 1, name := "Shell", buy := finVal 100,
    v := Val.obj
      [("world", Val.obj [("min", finVal 250), ("recent", finVal 260),
                          ("avg", finVal 270), ("vel", finVal 3)]),
       ("dc", Val.obj [("min", finVal 240), ("recent", finVal 255),
                       ("avg", finVal 265), ("vel", finVal 30)]),
       ("region", Val.obj [("min", finVal 230), ("recent", finVal 245),
                           ("avg", finVal 262), ("vel", finVal 300)])] }

/-- A base row of cost 3 whose metric at (min, world) is the literal `0.1`. -/
def roundingRow : Row := exampleRow 5 "Coral" (finVal 3) (ratioVal 1 10)

/-- A base row whose cost is the smallest positive double, `5e-324`, and whose
metric is `2^52`. -/
def overflowRow : Row :=
  exampleRow 6 "Kelp" (Val.num (Num.fin 1)) (finVal 4503599627370496)

/-- Four base rows with distinct names: factors 2.5, none, 25 and 1.5, profits
150, none, 240 and 500. -/
def exampleRows : List Row :=
  [exampleRow 1 "Shell" (finVal 100) (finVal 250),
   exampleRow 2 "Apple" Val.null Val.null,
   exampleRow 3 "Horn" (finVal 10) (finVal 250),
   exampleRow 4 "Pearl" (finVal 1000) (finVal 1500)]

/-- Two base rows whose factors `1000.1 / 10` and `100.01 / 1` are the same
double. -/
def roundedRows : List Row :=
  [exampleRow 1 "A" (finVal 10) (ratioVal 10001 10),
   exampleRow 2 "B" (finVal 1) (ratioVal 10001 100)]

/-- Two different base rows of the same name whose factors
`100000001 / 100000000` and `100000002 / 100000001` are the same double. -/
def sameDoubleRows : List Row :=
  [exampleRow 1 "X" (finVal 100000000) (finVal 100000001),
   exampleRow 2 "X" (finVal 100000001) (finVal 100000002)]

/-- Two different base rows with the same name and no sort key. -/
def tiedRows : List Row :=
  [exampleRow 1 "Shell" Val.null Val.null, exampleRow 2 "Shell" Val.null Val.null]

/-- The catalog of the example of the specification: item ids 5057 and 5058. -/
def exampleCatalog : Catalog :=
  [("5057", { buy := finVal 100, name := some "Shell" }),
   ("5058", { buy := finVal 50, name := some "Horn" })]

/-- The state of the page before the first fetch. -/
def initialState (catalog : Catalog) : AppState :=
  { ITEM_DATA := catalog, baseRows := [], nodeById := [], refsById := [], nextNode := 0,
    resultsChildren := [], status := "Ready", datacenterValue := "", sourceValue := "",
    scopeValue := "", sortValue := "", controlsDisabled := false, ctrlActive := false }

/-- An entry of a response with one price, `nq.minListing.world.price`. -/
def exampleEntry (id : Nat) (price : Val) : Entry :=
  { itemId := id,
    nq := Val.obj [("minListing", Val.obj [("world", Val.obj [("price", price)])])] }

/-- A state in which items 1 and 2 have handles and the rows are items 2 and 3. -/
def reconcileState : AppState :=
  { initialState exampleCatalog with
    baseRows := [exampleRow 2 "Apple" Val.null Val.null, exampleRow 3 "Horn" Val.null Val.null]
    nodeById := [(1, 0), (2, 1)]
    refsById := [(1, 0), (2, 1)]
    nextNode := 2
    resultsChildren := [0, 1] }

/-- The state after a first successful fetch that answers with item 5057. -/
def shownState : AppState :=
  run codePointCompare (initialState exampleCatalog)
    (FetchOutcome.ok (some [exampleEntry 5057 (finVal 250)]))

/-- Two datacenters of one region that share a world. -/
def exampleDatacenters : List Datacenter :=
  [{ name := some "Chaos", region := some "Europe", worlds := some [1, 2] },
   { name := some "Light", region := some "Europe", worlds := some [2, 3] }]

/-- The worlds of the example datacenters. -/
def exampleWorlds : List World :=
  [{ id := 1, name := some "Cerberus" }, { id := 2, name := some "Louisoix" },
   { id := 3, name := some "Odin" }]

/-! # Properties -/

/-! ## Numbers -/

namespace Num

/-- The spacing is positive. -/
theorem spacingAux_pos (fuel n : ℕ) : 0 < spacingAux fuel n := by
  induction fuel generalizing n with
  | zero => simp [spacingAux]
  | succ fuel ih =>
    unfold spacingAux
    split
    · exact Nat.one_pos
    · have := ih (n / 2)
      omega

/-- The spacing around a positive number is at most that number. -/
theorem spacingAux_le (fuel n : ℕ) (hn : n ≠ 0) : spacingAux fuel n ≤ n := by
  induction fuel generalizing n with
  | zero =>
    simp only [spacingAux]
    omega
  | succ fuel ih =>
    unfold spacingAux
    split
    · omega
    · rename_i h
      have h2 : significandLimit ≤ n := Nat.le_of_not_lt h
      have h3 : n / 2 ≠ 0 := by
        unfold significandLimit at h2
        omega
      have := ih (n / 2) h3
      omega

/-- Below the spacing found lie fewer than 53 further binary digits. -/
theorem spacingAux_spec (fuel n : ℕ) (hf : n ≤ fuel) :
    n < significandLimit * spacingAux fuel n := by
  induction fuel generalizing n with
  | zero =>
    have : n = 0 := by omega
    subst this
    simp [spacingAux, significandLimit]
  | succ fuel ih =>
    unfold spacingAux
    split
    · omega
    · rename_i h
      have h2 : significandLimit ≤ n := Nat.le_of_not_lt h
      have h3 : n / 2 ≤ fuel := by
        unfold significandLimit at h2
        omega
      have := ih (n / 2) h3
      have h4 : significandLimit * (2 * spacingAux fuel (n / 2))
          = 2 * (significandLimit * spacingAux fuel (n / 2)) := by ring
      rw [h4]
      omega

/-- The spacing is positive. -/
theorem spacing_pos (n : ℕ) : 0 < spacing n := spacingAux_pos n n

/-- Rounding stays within half a spacing of the exact value. -/
theorem roundNearestEven_near (num den : ℕ) (hden : den ≠ 0) :
    2 * (roundNearestEven num den * den) ≤ 2 * num + den * spacing (num / den) ∧
    2 * num ≤ 2 * (roundNearestEven num den * den) + den * spacing (num / den) := by
  unfold roundNearestEven
  simp only []
  have hs := spacing_pos (num / den)
  generalize spacing (num / den) = s at hs
  have hD : 0 < den * s := Nat.mul_pos (Nat.pos_of_ne_zero hden) hs
  have hdm := Nat.div_add_mod num (den * s)
  have hr := Nat.mod_lt num hD
  generalize num / (den * s) = k at hdm ⊢
  generalize num % (den * s) = r at hdm hr ⊢
  have e1 : k * s * den = den * s * k := by ring
  have e2 : (k + 1) * s * den = den * s * k + den * s := by ring
  generalize den * s = D at hD hdm hr e1 e2 ⊢
  generalize D * k = P at hdm e1 e2
  split
  · rw [e1]
    omega
  · split
    · rw [e2]
      omega
    · split
      · rw [e1]
        omega
      · rw [e2]
        omega

/-- The rounded magnitude has a significand of at most 53 binary digits. -/
theorem roundNearestEven_significand (num den : ℕ) :
    ∃ k, k ≤ significandLimit ∧ roundNearestEven num den = k * spacing (num / den) := by
  unfold roundNearestEven
  simp only []
  have hspec := spacingAux_spec (num / den) (num / den) (le_refl _)
  have hk : num / (den * spacing (num / den)) < significandLimit := by
    rw [← Nat.div_div_eq_div_mul]
    exact Nat.div_lt_of_lt_mul (by rw [Nat.mul_comm]; exact hspec)
  generalize num / (den * spacing (num / den)) = k at hk
  refine ⟨_, ?_, rfl⟩
  split
  · omega
  · split
    · omega
    · split
      · omega
      · omega

/-- Rounding a positive whole number of units never gives zero. -/
theorem roundNearestEven_pos (n : ℕ) (hn : 0 < n) : 0 < roundNearestEven n 1 := by
  unfold roundNearestEven
  simp only [Nat.div_one, Nat.one_mul]
  have hs := spacing_pos n
  have hle : spacing n ≤ n := spacingAux_le n n (Nat.pos_iff_ne_zero.1 hn)
  have hk : 0 < n / spacing n := Nat.div_pos hle hs
  generalize n / spacing n = k at hk
  apply Nat.mul_pos _ hs
  split
  · exact hk
  · split
    · omega
    · split
      · exact hk
      · omega

/-- Rounding zero gives zero. -/
theorem roundNearestEven_zero : roundNearestEven 0 1 = 0 := by
  simp [roundNearestEven, spacing, spacingAux]

/-- The sign of a rounded magnitude. -/
theorem gtZero_ofMagnitude (negative : Bool) (num den : ℕ) :
    (ofMagnitude negative num den).gtZero
      = (!negative && decide (0 < roundNearestEven num den)) := by
  unfold ofMagnitude
  simp only []
  generalize roundNearestEven num den = u
  have ho : 0 < overflowUnits := by
    unfold overflowUnits
    positivity
  cases negative with
  | true =>
    by_cases h : overflowUnits ≤ u
    · simp [h, gtZero]
    · simp [h, gtZero]
  | false =>
    by_cases h : overflowUnits ≤ u
    · have : 0 < u := by omega
      simp [h, gtZero, this]
    · simp [h, gtZero]

/-- The difference of two finite numbers is positive exactly when the first is
the larger: the rounding of `-` never loses the sign. -/
theorem gtZero_sub (a b : ℤ) : (sub (fin a) (fin b)).gtZero = decide (b < a) := by
  unfold sub
  rw [gtZero_ofMagnitude]
  rcases lt_trichotomy a b with h | h | h
  · have h1 : a - b < 0 := by omega
    have h2 : ¬ b < a := by omega
    simp [h1, h2]
  · subst h
    simp [roundNearestEven_zero]
  · have h1 : ¬ a - b < 0 := by omega
    have h3 : 0 < (a - b).natAbs := by omega
    have := roundNearestEven_pos _ h3
    simp [h1, h, this]

/-- An integer as a number is positive exactly when the integer is. -/
theorem gtZero_ofInt (z : ℤ) : (ofInt z).gtZero = decide (0 < z) := by
  unfold ofInt ofRatio
  rw [gtZero_ofMagnitude]
  have hu : 0 < unitsPerOne := by
    unfold unitsPerOne
    positivity
  rcases lt_trichotomy z 0 with h | h | h
  · have h2 : ¬ 0 < z := by omega
    simp [h, h2]
  · subst h
    simp [roundNearestEven_zero]
  · have h1 : ¬ z < 0 := by omega
    have h3 : 0 < z.natAbs * unitsPerOne := Nat.mul_pos (by omega) hu
    have := roundNearestEven_pos _ h3
    simp [h1, h, this]

/-- Rounding leaves a representable magnitude as it is. -/
theorem roundNearestEven_of_dvd (n : ℕ) (h : spacing n ∣ n) : roundNearestEven n 1 = n := by
  unfold roundNearestEven
  simp only [Nat.div_one, Nat.one_mul]
  have hs := spacing_pos n
  have hr : n % spacing n = 0 := Nat.mod_eq_zero_of_dvd h
  rw [hr]
  simp only [Nat.mul_zero, hs, if_true]
  exact Nat.div_mul_cancel h

/-- Subtracting zero from a double gives the double. -/
theorem sub_zero_of_isDouble (m : ℤ) (h : IsDouble m) : sub (fin m) (fin 0) = fin m := by
  unfold sub ofMagnitude
  simp only [Int.sub_zero]
  rw [roundNearestEven_of_dvd _ h.1]
  have h2 : ¬ overflowUnits ≤ m.natAbs := Nat.not_le.2 h.2
  simp only [h2, if_false]
  by_cases hm : m < 0
  · simp only [hm, decide_True, if_true]
    congr 1
    omega
  · simp only [hm, decide_False]
    congr 1
    simp only [Bool.false_eq_true, if_false]
    omega

end Num

/-! ## Derived values -/

/-- The values `Number.isFinite` accepts are the finite numbers. -/
theorem isFinite_iff (v : Val) : v.isFinite = true ↔ ∃ u : ℤ, v = Val.num (Num.fin u) := by
  constructor
  · intro h
    cases v with
    | num n =>
      cases n with
      | fin u => exact ⟨u, rfl⟩
      | nan => simp [Val.isFinite] at h
      | posInf => simp [Val.isFinite] at h
      | negInf => simp [Val.isFinite] at h
    | undefined => simp [Val.isFinite] at h
    | null => simp [Val.isFinite] at h
    | bool b => simp [Val.isFinite] at h
    | str s => simp [Val.isFinite] at h
    | arr l => simp [Val.isFinite] at h
    | obj l => simp [Val.isFinite] at h
  · rintro ⟨u, rfl⟩
    rfl

/-- An optional read gives a value that is not nullish exactly when it is the
own member of that name of an object. -/
theorem optGet_eq_iff (v w : Val) (key : String) (hw : w.isNullish = false) :
    v.optGet key = w ↔ ∃ fields, v = Val.obj fields ∧ fields.lookup key = some w := by
  have hu : w ≠ Val.undefined := by
    rintro rfl
    simp [Val.isNullish] at hw
  cases v with
  | obj fields =>
    simp only [Val.optGet, Val.isNullish, Val.getProp, Bool.false_eq_true, if_false,
      Val.obj.injEq, exists_eq_left']
    cases hl : fields.lookup key with
    | none =>
      simp only [Option.getD_none]
      constructor
      · intro e
        exact absurd e.symm hu
      · intro e
        cases e
    | some x => simp
  | undefined =>
    simp only [Val.optGet, Val.isNullish, if_true]
    constructor
    · intro e
      exact absurd e.symm hu
    · rintro ⟨_, e, _⟩
      cases e
  | null =>
    simp only [Val.optGet, Val.isNullish, if_true]
    constructor
    · intro e
      exact absurd e.symm hu
    · rintro ⟨_, e, _⟩
      cases e
  | bool b =>
    simp only [Val.optGet, Val.isNullish, Val.getProp, Bool.false_eq_true, if_false]
    constructor
    · intro e
      exact absurd e.symm hu
    · rintro ⟨_, e, _⟩
      cases e
  | num n =>
    simp only [Val.optGet, Val.isNullish, Val.getProp, Bool.false_eq_true, if_false]
    constructor
    · intro e
      exact absurd e.symm hu
    · rintro ⟨_, e, _⟩
      cases e
  | str s =>
    simp only [Val.optGet, Val.isNullish, Val.getProp, Bool.false_eq_true, if_false]
    constructor
    · intro e
      exact absurd e.symm hu
    · rintro ⟨_, e, _⟩
      cases e
  | arr l =>
    simp only [Val.optGet, Val.isNullish, Val.getProp, Bool.false_eq_true, if_false]
    constructor
    · intro e
      exact absurd e.symm hu
    · rintro ⟨_, e, _⟩
      cases e

/-- The metric `computeDerived` selects is the finite number `m` exactly when
`row.v` is an object whose member `scope` is an object whose member `sourceKey`
is `m`. -/
theorem selectedMetric_eq_fin_iff (row : Row) (sourceKey scope : String) (m : ℤ) :
    selectedMetric row sourceKey scope = Val.num (Num.fin m) ↔
      ∃ scopeTable metrics : List (String × Val),
        row.v = Val.obj scopeTable ∧
        scopeTable.lookup scope = some (Val.obj metrics) ∧
        metrics.lookup sourceKey = some (Val.num (Num.fin m)) := by
  have h1 : selectedMetric row sourceKey scope = Val.num (Num.fin m) ↔
      (row.v.optGet scope).optGet sourceKey = Val.num (Num.fin m) := by
    unfold selectedMetric Val.orElse
    split
    · rename_i hn
      constructor
      · intro e
        cases e
      · intro e
        rw [e] at hn
        simp [Val.isNullish] at hn
    · exact Iff.rfl
  rw [h1, optGet_eq_iff (row.v.optGet scope) (Val.num (Num.fin m)) sourceKey rfl]
  constructor
  · rintro ⟨metrics, hm, hl⟩
    obtain ⟨scopeTable, hv, hs⟩ := (optGet_eq_iff row.v (Val.obj metrics) scope rfl).1 hm
    exact ⟨scopeTable, metrics, hv, hs, hl⟩
  · rintro ⟨scopeTable, metrics, hv, hs, hl⟩
    exact ⟨metrics, (optGet_eq_iff row.v (Val.obj metrics) scope rfl).2 ⟨scopeTable, hv, hs⟩, hl⟩

/-- The `factor` of `computeDerived`, as the source writes it. -/
theorem factor_eq (row : Row) (sourceKey scope : String) :
    (computeDerived row sourceKey scope).factor =
      if (selectedMetric row sourceKey scope).isFinite && (row.buy.isFinite && row.buy.gtZero)
      then (selectedMetric row sourceKey scope).div row.buy else Val.null := rfl

/-- The `profit` of `computeDerived`, as the source writes it. -/
theorem profit_eq (row : Row) (sourceKey scope : String) :
    (computeDerived row sourceKey scope).profit =
      if (selectedMetric row sourceKey scope).isFinite && row.buy.isFinite
      then (selectedMetric row sourceKey scope).sub row.buy else Val.null := rfl

/-- C1: `computeDerived` gives a non-null `factor` exactly when `row.buy` is a
finite number greater than 0 and the member `sourceKey` of the member `scope`
of `row.v` is a finite number; the factor is then that metric divided by the
cost, the quotient of `/` on doubles, and in every other case it is `null`, so
the division is only evaluated on a positive finite cost. -/
theorem computeDerived_factor (row : Row) (sourceKey scope : String) :
    ((computeDerived row sourceKey scope).factor ≠ Val.null ↔
      ∃ (b m : ℤ) (scopeTable metrics : List (String × Val)),
        row.buy = Val.num (Num.fin b) ∧ 0 < b ∧
        row.v = Val.obj scopeTable ∧
        scopeTable.lookup scope = some (Val.obj metrics) ∧
        metrics.lookup sourceKey = some (Val.num (Num.fin m))) ∧
    (∀ (b m : ℤ) (scopeTable metrics : List (String × Val)),
      row.buy = Val.num (Num.fin b) → 0 < b →
      row.v = Val.obj scopeTable →
      scopeTable.lookup scope = some (Val.obj metrics) →
      metrics.lookup sourceKey = some (Val.num (Num.fin m)) →
      (computeDerived row sourceKey scope).srcVal = Val.num (Num.fin m) ∧
      (computeDerived row sourceKey scope).factor
        = Val.num (Num.div (Num.fin m) (Num.fin b))) ∧
    ((¬ ∃ (b m : ℤ) (scopeTable metrics : List (String × Val)),
        row.buy = Val.num (Num.fin b) ∧ 0 < b ∧
        row.v = Val.obj scopeTable ∧
        scopeTable.lookup scope = some (Val.obj metrics) ∧
        metrics.lookup sourceKey = some (Val.num (Num.fin m))) →
      (computeDerived row sourceKey scope).factor = Val.null) := by
  have key : ∀ (b m : ℤ) (scopeTable metrics : List (String × Val)),
      row.buy = Val.num (Num.fin b) → 0 < b →
      row.v = Val.obj scopeTable →
      scopeTable.lookup scope = some (Val.obj metrics) →
      metrics.lookup sourceKey = some (Val.num (Num.fin m)) →
      (computeDerived row sourceKey scope).srcVal = Val.num (Num.fin m) ∧
      (computeDerived row sourceKey scope).factor
        = Val.num (Num.div (Num.fin m) (Num.fin b)) := by
    intro b m scopeTable metrics hb hpos hv hs hl
    have hm : selectedMetric row sourceKey scope = Val.num (Num.fin m) :=
      (selectedMetric_eq_fin_iff row sourceKey scope m).2 ⟨scopeTable, metrics, hv, hs, hl⟩
    refine ⟨hm, ?_⟩
    rw [factor_eq, hb, hm]
    simp [Val.isFinite, Val.gtZero, Num.gtZero, hpos, Val.div]
  have none : (¬ ∃ (b m : ℤ) (scopeTable metrics : List (String × Val)),
        row.buy = Val.num (Num.fin b) ∧ 0 < b ∧
        row.v = Val.obj scopeTable ∧
        scopeTable.lookup scope = some (Val.obj metrics) ∧
        metrics.lookup sourceKey = some (Val.num (Num.fin m))) →
      (computeDerived row sourceKey scope).factor = Val.null := by
    intro hn
    rw [factor_eq]
    split
    · rename_i h
      exfalso
      apply hn
      simp only [Bool.and_eq_true] at h
      obtain ⟨hm, hb, hpos⟩ := h
      obtain ⟨m, hm⟩ := (isFinite_iff _).1 hm
      obtain ⟨b, hb⟩ := (isFinite_iff _).1 hb
      obtain ⟨scopeTable, metrics, hv, hs, hl⟩ :=
        (selectedMetric_eq_fin_iff row sourceKey scope m).1 hm
      refine ⟨b, m, scopeTable, metrics, hb, ?_, hv, hs, hl⟩
      rw [hb] at hpos
      simpa [Val.gtZero, Num.gtZero] using hpos
    · rfl
  refine ⟨⟨?_, ?_⟩, key, none⟩
  · intro h
    by_contra hn
    exact h (none hn)
  · rintro ⟨b, m, scopeTable, metrics, hb, hpos, hv, hs, hl⟩
    rw [(key b m scopeTable metrics hb hpos hv hs hl).2]
    simp


/-- The number of units in 1 is positive. -/
theorem unitsPerOne_pos : (0 : ℤ) < (Num.unitsPerOne : ℤ) := by
  unfold Num.unitsPerOne
  positivity

/-- C1 on a row of cost 100 whose twelve metrics differ: the factor is the
quotient of the metric at the selected scope and source, 250 / 100 = 2.5 at
(min, world), 265 / 100 at (avg, dc) and 300 / 100 = 3 at (vel, region).  The
quotient is rounded as `/` rounds, `0.1 / 3` being `0.03333333333333333`, and
overflows as `/` does, `2^52 / 5e-324` being `Infinity`, which is not `null`. -/
theorem computeDerived_factor_example :
    (computeDerived tableRow "min" "world").factor = ratioVal 5 2 ∧
    (computeDerived tableRow "avg" "dc").factor = ratioVal 265 100 ∧
    (computeDerived tableRow "vel" "region").factor = finVal 3 ∧
    (computeDerived tableRow "recent" "dc").srcVal = finVal 255 ∧
    (computeDerived roundingRow "min" "world").factor
      = ratioVal 3333333333333333 100000000000000000 ∧
    (computeDerived overflowRow "min" "world").factor = Val.num Num.posInf := by
  refine ⟨?_, ?_, ?_, ?_, ?_, ?_⟩
  · rw [((computeDerived_factor tableRow "min" "world").2.1
      (100 * (Num.unitsPerOne : ℤ)) (250 * (Num.unitsPerOne : ℤ)) _ _ rfl
      (Int.mul_pos (by decide) unitsPerOne_pos) rfl rfl rfl).2]
    exact congrArg Val.num (by decide!)
  · rw [((computeDerived_factor tableRow "avg" "dc").2.1
      (100 * (Num.unitsPerOne : ℤ)) (265 * (Num.unitsPerOne : ℤ)) _ _ rfl
      (Int.mul_pos (by decide) unitsPerOne_pos) rfl rfl rfl).2]
    exact congrArg Val.num (by decide!)
  · rw [((computeDerived_factor tableRow "vel" "region").2.1
      (100 * (Num.unitsPerOne : ℤ)) (300 * (Num.unitsPerOne : ℤ)) _ _ rfl
      (Int.mul_pos (by decide) unitsPerOne_pos) rfl rfl rfl).2]
    exact congrArg Val.num (by decide!)
  · exact ((computeDerived_factor tableRow "recent" "dc").2.1
      (100 * (Num.unitsPerOne : ℤ)) (255 * (Num.unitsPerOne : ℤ)) _ _ rfl
      (Int.mul_pos (by decide) unitsPerOne_pos) rfl rfl rfl).1
  · have hm : Num.ofRatio 1 10 = Num.fin (3602879701896397 * 2 ^ 1019) := by decide!
    have hl : ([("min", ratioVal 1 10)] : List (String × Val)).lookup "min"
        = some (Val.num (Num.fin (3602879701896397 * 2 ^ 1019))) := by
      rw [← hm]
      rfl
    rw [((computeDerived_factor roundingRow "min" "world").2.1
      (3 * (Num.unitsPerOne : ℤ)) (3602879701896397 * 2 ^ 1019) _ _ rfl
      (Int.mul_pos (by decide) unitsPerOne_pos) rfl rfl hl).2]
    exact congrArg Val.num (by decide!)
  · rw [((computeDerived_factor overflowRow "min" "world").2.1
      1 (4503599627370496 * (Num.unitsPerOne : ℤ)) _ _ rfl (by decide) rfl rfl rfl).2]
    exact congrArg Val.num (by decide!)

/-- C2: `computeDerived` gives a non-null `profit` exactly when `row.buy` and the
member `sourceKey` of the member `scope` of `row.v` are both finite numbers; the
profit is then that metric minus the cost, the difference of `-` on doubles,
otherwise `null`.  A cost of 0 gives the metric as profit and no factor; an
absent cost gives neither. -/
theorem computeDerived_profit (row : Row) (sourceKey scope : String) :
    ((computeDerived row sourceKey scope).profit ≠ Val.null ↔
      ∃ (b m : ℤ) (scopeTable metrics : List (String × Val)),
        row.buy = Val.num (Num.fin b) ∧
        row.v = Val.obj scopeTable ∧
        scopeTable.lookup scope = some (Val.obj metrics) ∧
        metrics.lookup sourceKey = some (Val.num (Num.fin m))) ∧
    (∀ (b m : ℤ) (scopeTable metrics : List (String × Val)),
      row.buy = Val.num (Num.fin b) →
      row.v = Val.obj scopeTable →
      scopeTable.lookup scope = some (Val.obj metrics) →
      metrics.lookup sourceKey = some (Val.num (Num.fin m)) →
      (computeDerived row sourceKey scope).profit
        = Val.num (Num.sub (Num.fin m) (Num.fin b))) ∧
    ((¬ ∃ (b m : ℤ) (scopeTable metrics : List (String × Val)),
        row.buy = Val.num (Num.fin b) ∧
        row.v = Val.obj scopeTable ∧
        scopeTable.lookup scope = some (Val.obj metrics) ∧
        metrics.lookup sourceKey = some (Val.num (Num.fin m))) →
      (computeDerived row sourceKey scope).profit = Val.null) ∧
    (∀ (m : ℤ) (scopeTable metrics : List (String × Val)),
      row.buy = Val.num (Num.fin 0) →
      row.v = Val.obj scopeTable →
      scopeTable.lookup scope = some (Val.obj metrics) →
      metrics.lookup sourceKey = some (Val.num (Num.fin m)) →
      Num.IsDouble m →
      (computeDerived row sourceKey scope).profit = Val.num (Num.fin m) ∧
      (computeDerived row sourceKey scope).factor = Val.null) ∧
    (row.buy = Val.null ∨ row.buy = Val.undefined →
      (computeDerived row sourceKey scope).profit = Val.null ∧
      (computeDerived row sourceKey scope).factor = Val.null) := by
  have key : ∀ (b m : ℤ) (scopeTable metrics : List (String × Val)),
      row.buy = Val.num (Num.fin b) →
      row.v = Val.obj scopeTable →
      scopeTable.lookup scope = some (Val.obj metrics) →
      metrics.lookup sourceKey = some (Val.num (Num.fin m)) →
      (computeDerived row sourceKey scope).profit
        = Val.num (Num.sub (Num.fin m) (Num.fin b)) := by
    intro b m scopeTable metrics hb hv hs hl
    have hm : selectedMetric row sourceKey scope = Val.num (Num.fin m) :=
      (selectedMetric_eq_fin_iff row sourceKey scope m).2 ⟨scopeTable, metrics, hv, hs, hl⟩
    rw [profit_eq, hb, hm]
    simp [Val.isFinite, Val.sub]
  have none : (¬ ∃ (b m : ℤ) (scopeTable metrics : List (String × Val)),
        row.buy = Val.num (Num.fin b) ∧
        row.v = Val.obj scopeTable ∧
        scopeTable.lookup scope = some (Val.obj metrics) ∧
        metrics.lookup sourceKey = some (Val.num (Num.fin m))) →
      (computeDerived row sourceKey scope).profit = Val.null := by
    intro hn
    rw [profit_eq]
    split
    · rename_i h
      exfalso
      apply hn
      simp only [Bool.and_eq_true] at h
      obtain ⟨m, hm⟩ := (isFinite_iff _).1 h.1
      obtain ⟨b, hb⟩ := (isFinite_iff _).1 h.2
      obtain ⟨scopeTable, metrics, hv, hs, hl⟩ :=
        (selectedMetric_eq_fin_iff row sourceKey scope m).1 hm
      exact ⟨b, m, scopeTable, metrics, hb, hv, hs, hl⟩
    · rfl
  refine ⟨⟨?_, ?_⟩, key, none, ?_, ?_⟩
  · intro h
    by_contra hn
    exact h (none hn)
  · rintro ⟨b, m, scopeTable, metrics, hb, hv, hs, hl⟩
    rw [key b m scopeTable metrics hb hv hs hl]
    simp
  · intro m scopeTable metrics hb hv hs hl hd
    refine ⟨?_, ?_⟩
    · rw [key 0 m scopeTable metrics hb hv hs hl, Num.sub_zero_of_isDouble m hd]
    · rw [factor_eq, hb]
      simp [Val.isFinite, Val.gtZero, Num.gtZero]
  · intro hb
    refine ⟨?_, ?_⟩
    · rw [profit_eq]
      rcases hb with hb | hb <;> rw [hb] <;> simp [Val.isFinite]
    · rw [factor_eq]
      rcases hb with hb | hb <;> rw [hb] <;> simp [Val.isFinite]

/-- C2 on rows whose twelve metrics differ: at cost 100 the profit is the metric
at the selected scope and source minus 100, 150 at (min, world), 165 at
(avg, dc), -97 at (vel, world); at cost 0 the profit is the metric, 255 at
(recent, dc), and there is no factor; without a cost there is neither. -/
theorem computeDerived_profit_example :
    (computeDerived tableRow "min" "world").profit = finVal 150 ∧
    (computeDerived tableRow "avg" "dc").profit = finVal 165 ∧
    (computeDerived tableRow "vel" "world").profit = finVal (-97) ∧
    (computeDerived { tableRow with buy := finVal 0 } "recent" "dc").profit = finVal 255 ∧
    (computeDerived { tableRow with buy := finVal 0 } "recent" "dc").factor = Val.null ∧
    (computeDerived { tableRow with buy := Val.undefined } "min" "world").profit
      = Val.null ∧
    (computeDerived { tableRow with buy := Val.undefined } "min" "world").factor
      = Val.null := by
  refine ⟨?_, ?_, ?_, ?_, ?_, ?_, ?_⟩
  · rw [(computeDerived_profit tableRow "min" "world").2.1
      (100 * (Num.unitsPerOne : ℤ)) (250 * (Num.unitsPerOne : ℤ)) _ _ rfl rfl rfl rfl]
    exact congrArg Val.num (by decide!)
  · rw [(computeDerived_profit tableRow "avg" "dc").2.1
      (100 * (Num.unitsPerOne : ℤ)) (265 * (Num.unitsPerOne : ℤ)) _ _ rfl rfl rfl rfl]
    exact congrArg Val.num (by decide!)
  · rw [(computeDerived_profit tableRow "vel" "world").2.1
      (100 * (Num.unitsPerOne : ℤ)) (3 * (Num.unitsPerOne : ℤ)) _ _ rfl rfl rfl rfl]
    exact congrArg Val.num (by decide!)
  · exact ((computeDerived_profit { tableRow with buy := finVal 0 } "recent" "dc").2.2.2.1
      (255 * (Num.unitsPerOne : ℤ)) _ _ (congrArg Val.num (by decide!)) rfl rfl rfl
      ⟨by decide!, by decide!⟩).1
  · exact ((computeDerived_profit { tableRow with buy := finVal 0 } "recent" "dc").2.2.2.1
      (255 * (Num.unitsPerOne : ℤ)) _ _ (congrArg Val.num (by decide!)) rfl rfl rfl
      ⟨by decide!, by decide!⟩).2
  · exact ((computeDerived_profit { tableRow with buy := Val.undefined } "min" "world").2.2.2.2
      (Or.inr rfl)).1
  · exact ((computeDerived_profit { tableRow with buy := Val.undefined } "min" "world").2.2.2.2
      (Or.inr rfl)).2

/-! ## Sorting -/

/-- The key the sort callback reads is the one the specification names: the
profit in sort mode `profit`, the factor otherwise. -/
theorem sortKey_eq (m : String) (r : DerivedRow) :
    sortKey m r = finiteKey (getKey m r) := by
  unfold sortKey getKey
  split <;> rfl

/-- The number the sort callback compares is the sort key of the specification. -/
theorem keyNum_cases (m : String) (r : DerivedRow) :
    (∃ u : ℤ, keyNum m r = Num.fin u ∧ sortKey m r = (u : WithBot ℤ)) ∨
    (keyNum m r = Num.negInf ∧ sortKey m r = ⊥) := by
  rw [sortKey_eq]
  unfold keyNum
  cases getKey m r with
  | num n =>
    cases n with
    | fin u => exact Or.inl ⟨u, by simp [Val.isFinite, Val.asNum], rfl⟩
    | nan => exact Or.inr ⟨by simp [Val.isFinite], rfl⟩
    | posInf => exact Or.inr ⟨by simp [Val.isFinite], rfl⟩
    | negInf => exact Or.inr ⟨by simp [Val.isFinite], rfl⟩
  | undefined => exact Or.inr ⟨by simp [Val.isFinite], rfl⟩
  | null => exact Or.inr ⟨by simp [Val.isFinite], rfl⟩
  | bool b => exact Or.inr ⟨by simp [Val.isFinite], rfl⟩
  | str s => exact Or.inr ⟨by simp [Val.isFinite], rfl⟩
  | arr l => exact Or.inr ⟨by simp [Val.isFinite], rfl⟩
  | obj l => exact Or.inr ⟨by simp [Val.isFinite], rfl⟩

/-- The callback lets `a` stay in front of `b` exactly when the key of `a` is
larger, or the keys are equal and the name of `a` does not compare after. -/
theorem rowLe_iff (lc : String → String → Int) (m : String) (a b : DerivedRow) :
    rowLe lc m a b ↔
      sortKey m b < sortKey m a ∨ (sortKey m a = sortKey m b ∧ lc a.name b.name ≤ 0) := by
  unfold rowLe comparator
  rcases keyNum_cases m a with ⟨qa, ha, ka⟩ | ⟨ha, ka⟩ <;>
    rcases keyNum_cases m b with ⟨qb, hb, kb⟩ | ⟨hb, kb⟩ <;>
    simp only [ha, hb, ka, kb]
  · by_cases hq : qb = qa
    · subst hq
      simp [Num.strictNe, Num.gtZero_ofInt]
    · have hq2 : ¬ qa = qb := fun h => hq h.symm
      simp [Num.strictNe, Num.gtZero_sub, hq, hq2]
      exact ⟨fun h => lt_of_le_of_ne h hq, le_of_lt⟩
  · simp [Num.strictNe, Num.gtZero, Num.sub]
  · simp [Num.strictNe, Num.gtZero, Num.sub]
  · simp [Num.strictNe, Num.gtZero_ofInt]

/-- A consistent comparison relates any two strings one way or the other. -/
theorem lc_total {lc : String → String → Int} (h : ConsistentCompare lc) (a b : String) :
    lc a b ≤ 0 ∨ lc b a ≤ 0 := by
  by_cases hab : lc a b ≤ 0
  · exact Or.inl hab
  · right
    have : 0 < lc a b := not_le.1 hab
    exact le_of_lt ((h.antisymm b a).2 this)

/-- The order of the callback is total. -/
theorem rowLe_total {lc : String → String → Int} (h : ConsistentCompare lc) (m : String)
    (a b : DerivedRow) : rowLe lc m a b ∨ rowLe lc m b a := by
  rw [rowLe_iff, rowLe_iff]
  rcases lt_trichotomy (sortKey m a) (sortKey m b) with hlt | heq | hgt
  · exact Or.inr (Or.inl hlt)
  · rcases lc_total h a.name b.name with hl | hl
    · exact Or.inl (Or.inr ⟨heq, hl⟩)
    · exact Or.inr (Or.inr ⟨heq.symm, hl⟩)
  · exact Or.inl (Or.inl hgt)

/-- The order of the callback is transitive. -/
theorem rowLe_trans {lc : String → String → Int} (h : ConsistentCompare lc) (m : String)
    (a b c : DerivedRow) (hab : rowLe lc m a b) (hbc : rowLe lc m b c) : rowLe lc m a c := by
  rw [rowLe_iff] at *
  rcases hab with hab | ⟨hab, lab⟩ <;> rcases hbc with hbc | ⟨hbc, lbc⟩
  · exact Or.inl (lt_trans hbc hab)
  · exact Or.inl (hbc ▸ hab)
  · exact Or.inl (hab ▸ hbc)
  · exact Or.inr ⟨hab.trans hbc, h.trans _ _ _ lab lbc⟩

/-- The sort leaves the rows sorted for the order of the callback. -/
theorem arraySort_rows_sorted {lc : String → String → Int} (h : ConsistentCompare lc)
    (m : String) (l : List DerivedRow) :
    (arraySort (comparator lc m) l).Sorted (rowLe lc m) := by
  haveI : IsTotal DerivedRow (rowLe lc m) := ⟨rowLe_total h m⟩
  haveI : IsTrans DerivedRow (rowLe lc m) := ⟨rowLe_trans h m⟩
  exact List.sorted_insertionSort (rowLe lc m) l

/-- The sample comparison is consistent. -/
theorem codePointCompare_consistent : ConsistentCompare codePointCompare := by
  constructor
  · intro a b
    unfold codePointCompare
    generalize a.toList = x
    generalize b.toList = y
    rcases lt_trichotomy x y with h | h | h
    · have h1 : ¬ y < x := not_lt_of_gt h
      have h2 : ¬ y = x := fun e => (ne_of_lt h) e.symm
      simp [h, h1, h2]
    · simp [h]
    · have h1 : ¬ x < y := not_lt_of_gt h
      have h2 : ¬ x = y := fun e => (ne_of_lt h) e.symm
      simp [h, h1, h2]
  · intro a b c
    unfold codePointCompare
    generalize a.toList = x
    generalize b.toList = y
    generalize c.toList = z
    intro hab hbc
    have hab2 : x ≤ y := by
      by_contra hn
      have h1 : ¬ x < y := fun h => hn (le_of_lt h)
      have h2 : ¬ x = y := fun h => hn (le_of_eq h)
      simp [h1, h2] at hab
    have hbc2 : y ≤ z := by
      by_contra hn
      have h1 : ¬ y < z := fun h => hn (le_of_lt h)
      have h2 : ¬ y = z := fun h => hn (le_of_eq h)
      simp [h1, h2] at hbc
    rcases lt_or_eq_of_le (le_trans hab2 hbc2) with h | h
    · simp [h]
    · simp [h]

/-- Two strings that compare `≤ 0` both ways compare equal. -/
theorem lc_eq_zero {lc : String → String → Int} (h : ConsistentCompare lc) (a b : String)
    (hab : lc a b ≤ 0) (hba : lc b a ≤ 0) : lc a b = 0 := by
  rcases lt_or_eq_of_le hab with hlt | heq
  · have := (h.antisymm a b).1 hlt
    omega
  · exact heq

/-- The sorted rows are descending in the sort key, and among equal keys the
names ascend. -/
theorem sortedRows_pairwise {lc : String → String → Int} (h : ConsistentCompare lc)
    (sourceKey scope sortMode : String) (baseRows : List Row) :
    (sortedRows lc sourceKey scope sortMode baseRows).Pairwise
      (fun a b => sortKey sortMode b ≤ sortKey sortMode a ∧
        (sortKey sortMode a = sortKey sortMode b → lc a.name b.name ≤ 0)) := by
  have hs := arraySort_rows_sorted h sortMode (baseRows.map (deriveRow sourceKey scope))
  refine List.Pairwise.imp ?_ hs
  intro a b hab
  rcases (rowLe_iff lc sortMode a b).1 hab with hlt | ⟨heq, hl⟩
  · exact ⟨le_of_lt hlt, fun e => absurd hlt (by rw [e]; exact lt_irrefl _)⟩
  · exact ⟨le_of_eq heq.symm, fun _ => hl⟩

/-- C3: the rows `render` sorts are a permutation of the derived rows, each with
the id and name of a base row and the profit and factor `computeDerived` gives
it; a row placed before another has a key at least as large, the key being the
profit in sort mode `profit` and the factor otherwise and a missing (null or
non-finite) key counting as negative infinity; when the keys are equal its name
does not compare after the other name; so no row with a missing key precedes a
row with a key. -/
theorem sortedRows_sorted (lc : String → String → Int) (h : ConsistentCompare lc)
    (sourceKey scope sortMode : String) (baseRows : List Row) :
    (sortedRows lc sourceKey scope sortMode baseRows).Perm
      (baseRows.map (deriveRow sourceKey scope)) ∧
    (∀ r ∈ sortedRows lc sourceKey scope sortMode baseRows, ∃ b ∈ baseRows,
      r.id = b.id ∧ r.name = b.name ∧
      r.profit = (computeDerived b sourceKey scope).profit ∧
      r.factor = (computeDerived b sourceKey scope).factor) ∧
    (sortMode = "profit" →
      (sortedRows lc sourceKey scope sortMode baseRows).Pairwise
        (fun a b => finiteKey b.profit ≤ finiteKey a.profit ∧
          (finiteKey a.profit = finiteKey b.profit → lc a.name b.name ≤ 0) ∧
          (finiteKey a.profit = ⊥ → finiteKey b.profit = ⊥))) ∧
    (sortMode ≠ "profit" →
      (sortedRows lc sourceKey scope sortMode baseRows).Pairwise
        (fun a b => finiteKey b.factor ≤ finiteKey a.factor ∧
          (finiteKey a.factor = finiteKey b.factor → lc a.name b.name ≤ 0) ∧
          (finiteKey a.factor = ⊥ → finiteKey b.factor = ⊥))) := by
  have hperm : (sortedRows lc sourceKey scope sortMode baseRows).Perm
      (baseRows.map (deriveRow sourceKey scope)) := List.perm_insertionSort _ _
  have hp := sortedRows_pairwise h sourceKey scope sortMode baseRows
  refine ⟨hperm, ?_, ?_, ?_⟩
  · intro r hr
    obtain ⟨b, hb, rfl⟩ := List.mem_map.1 (hperm.subset hr)
    exact ⟨b, hb, rfl, rfl, rfl, rfl⟩
  · intro hm
    refine List.Pairwise.imp ?_ hp
    intro a b hab
    simp only [sortKey, hm, if_true] at hab
    refine ⟨hab.1, hab.2, fun ha => ?_⟩
    have := hab.1
    rw [ha] at this
    exact le_bot_iff.1 this
  · intro hm
    refine List.Pairwise.imp ?_ hp
    intro a b hab
    simp only [sortKey, hm, if_false] at hab
    refine ⟨hab.1, hab.2, fun ha => ?_⟩
    have := hab.1
    rw [ha] at this
    exact le_bot_iff.1 this

/-- C9: sorting an already sorted row sequence with the callback of `render`
returns the same sequence. -/
theorem arraySort_idem (lc : String → String → Int) (h : ConsistentCompare lc)
    (sortMode : String) (rows : List DerivedRow) :
    arraySort (comparator lc sortMode) (arraySort (comparator lc sortMode) rows)
      = arraySort (comparator lc sortMode) rows :=
  List.Sorted.insertionSort_eq (arraySort_rows_sorted h sortMode rows)

/-- Two permutations sorted by the comparator agree when rows that tie are equal. -/
theorem sorted_unique {lc : String → String → Int} (m : String)
    {l₁ l₂ : List DerivedRow} (hp : l₁.Perm l₂)
    (h₁ : l₁.Sorted (rowLe lc m)) (h₂ : l₂.Sorted (rowLe lc m))
    (hanti : ∀ a ∈ l₁, ∀ b ∈ l₁, rowLe lc m a b → rowLe lc m b a → a = b) : l₁ = l₂ := by
  let r : DerivedRow → DerivedRow → Prop := fun a b => rowLe lc m a b ∧ (rowLe lc m b a → a = b)
  haveI : IsAntisymm DerivedRow r := ⟨fun a b hab hba => hab.2 hba.1⟩
  have s₁ : l₁.Sorted r := by
    refine List.Pairwise.imp_of_mem ?_ h₁
    intro a b ha hb hab
    exact ⟨hab, hanti a ha b hb hab⟩
  have s₂ : l₂.Sorted r := by
    refine List.Pairwise.imp_of_mem ?_ h₂
    intro a b ha hb hab
    exact ⟨hab, hanti a (hp.symm.subset ha) b (hp.symm.subset hb) hab⟩
  exact List.eq_of_perm_of_sorted hp s₁ s₂

/-- C8 (amended): permuting the base rows does not change the sorted sequence
when any two of the rows whose sort keys are equal and whose names compare
equal are the same row. -/
theorem sortedRows_perm_invariant (lc : String → String → Int) (h : ConsistentCompare lc)
    (sourceKey scope sortMode : String) (rows₁ rows₂ : List Row) (hp : rows₁.Perm rows₂)
    (hties : ∀ a ∈ rows₁, ∀ b ∈ rows₁,
      sortKey sortMode (deriveRow sourceKey scope a) = sortKey sortMode (deriveRow sourceKey scope b) →
      lc a.name b.name = 0 → a = b) :
    sortedRows lc sourceKey scope sortMode rows₁ = sortedRows lc sourceKey scope sortMode rows₂ := by
  have p₁ := List.perm_insertionSort (rowLe lc sortMode) (rows₁.map (deriveRow sourceKey scope))
  have p₂ := List.perm_insertionSort (rowLe lc sortMode) (rows₂.map (deriveRow sourceKey scope))
  refine sorted_unique sortMode (p₁.trans ((hp.map _).trans p₂.symm))
    (arraySort_rows_sorted h sortMode _) (arraySort_rows_sorted h sortMode _) ?_
  intro a ha b hb hab hba
  obtain ⟨a0, ha0, rfl⟩ := List.mem_map.1 (p₁.subset ha)
  obtain ⟨b0, hb0, rfl⟩ := List.mem_map.1 (p₁.subset hb)
  have e : a0 = b0 := by
    rcases (rowLe_iff lc sortMode _ _).1 hab with hlt | ⟨heq, hl⟩
    · rcases (rowLe_iff lc sortMode _ _).1 hba with hlt2 | ⟨heq2, _⟩
      · exact absurd (lt_trans hlt hlt2) (lt_irrefl _)
      · rw [heq2] at hlt
        exact absurd hlt (lt_irrefl _)
    · rcases (rowLe_iff lc sortMode _ _).1 hba with hlt2 | ⟨_, hl2⟩
      · rw [heq] at hlt2
        exact absurd hlt2 (lt_irrefl _)
      · exact hties a0 ha0 b0 hb0 heq (lc_eq_zero h _ _ hl hl2)
  rw [e]

/-- C3 on example rows: by factor (25, 2.5, 1.5, none) they come in the order
3, 1, 4, 2 and by profit (500, 240, 150, none) in the order 4, 3, 1, 2; two rows
whose factors are the same double come in the order of their names; and both
orders are descending in the key of their mode. -/
theorem sortedRows_sorted_example :
    ConsistentCompare codePointCompare ∧
    (sortedRows codePointCompare "min" "world" "factor" exampleRows).map (fun r => r.id)
      = [3, 1, 4, 2] ∧
    (sortedRows codePointCompare "min" "world" "profit" exampleRows).map (fun r => r.id)
      = [4, 3, 1, 2] ∧
    (sortedRows codePointCompare "min" "world" "factor" roundedRows).map (fun r => r.id)
      = [1, 2] ∧
    (sortedRows codePointCompare "min" "world" "factor" roundedRows.reverse).map
      (fun r => r.id) = [1, 2] ∧
    (sortedRows codePointCompare "min" "world" "profit" exampleRows).Pairwise
      (fun a b => finiteKey b.profit ≤ finiteKey a.profit ∧
        (finiteKey a.profit = finiteKey b.profit → codePointCompare a.name b.name ≤ 0) ∧
        (finiteKey a.profit = ⊥ → finiteKey b.profit = ⊥)) ∧
    (sortedRows codePointCompare "min" "world" "factor" exampleRows).Pairwise
      (fun a b => finiteKey b.factor ≤ finiteKey a.factor ∧
        (finiteKey a.factor = finiteKey b.factor → codePointCompare a.name b.name ≤ 0) ∧
        (finiteKey a.factor = ⊥ → finiteKey b.factor = ⊥)) :=
  ⟨codePointCompare_consistent, by decide!, by decide!, by decide!, by decide!,
    (sortedRows_sorted codePointCompare codePointCompare_consistent
      "min" "world" "profit" exampleRows).2.2.1 rfl,
    (sortedRows_sorted codePointCompare codePointCompare_consistent
      "min" "world" "factor" exampleRows).2.2.2 (by decide)⟩

/-- C9 on the example rows, in both sort modes. -/
theorem arraySort_idem_example :
    ConsistentCompare codePointCompare ∧
    arraySort (comparator codePointCompare "factor")
        (sortedRows codePointCompare "min" "world" "factor" exampleRows)
      = sortedRows codePointCompare "min" "world" "factor" exampleRows ∧
    arraySort (comparator codePointCompare "profit")
        (sortedRows codePointCompare "min" "world" "profit" exampleRows)
      = sortedRows codePointCompare "min" "world" "profit" exampleRows :=
  ⟨codePointCompare_consistent,
    arraySort_idem codePointCompare codePointCompare_consistent "factor"
      (exampleRows.map (deriveRow "min" "world")),
    arraySort_idem codePointCompare codePointCompare_consistent "profit"
      (exampleRows.map (deriveRow "min" "world"))⟩

/-- C8 as stated fails: two different rows with the same name and no sort key
keep the order in which they were given, and so do two different rows with the
same name whose factors are the same double. -/
theorem sortedRows_depends_on_input_order :
    ConsistentCompare codePointCompare ∧ tiedRows.Perm tiedRows.reverse ∧
    sortedRows codePointCompare "min" "world" "factor" tiedRows
      ≠ sortedRows codePointCompare "min" "world" "factor" tiedRows.reverse ∧
    sameDoubleRows.Perm sameDoubleRows.reverse ∧
    sortedRows codePointCompare "min" "world" "factor" sameDoubleRows
      ≠ sortedRows codePointCompare "min" "world" "factor" sameDoubleRows.reverse := by
  refine ⟨codePointCompare_consistent, (List.reverse_perm tiedRows).symm, ?_,
    (List.reverse_perm sameDoubleRows).symm, ?_⟩
  · intro h
    have h2 := congrArg (List.map (fun r => r.id)) h
    revert h2
    decide!
  · intro h
    have h2 := congrArg (List.map (fun r => r.id)) h
    revert h2
    decide!

/-- C8 (amended) on the example rows, whose names are distinct. -/
theorem sortedRows_perm_invariant_example :
    ConsistentCompare codePointCompare ∧ exampleRows.Perm exampleRows.reverse ∧
    sortedRows codePointCompare "min" "world" "factor" exampleRows
      = sortedRows codePointCompare "min" "world" "factor" exampleRows.reverse :=
  ⟨codePointCompare_consistent, (List.reverse_perm exampleRows).symm,
    sortedRows_perm_invariant codePointCompare codePointCompare_consistent
      "min" "world" "factor" exampleRows exampleRows.reverse
      (List.reverse_perm exampleRows).symm
      (by
        intro a ha b hb _ hl
        simp only [exampleRows, List.mem_cons, List.mem_singleton, List.not_mem_nil,
          or_false] at ha hb
        rcases ha with rfl | rfl | rfl | rfl <;> rcases hb with rfl | rfl | rfl | rfl <;>
          first
          | rfl
          | exact absurd hl (by decide))⟩

/-! ## Reconciliation -/

/-- The keys of a map extended at its end. -/
theorem mapKeys_append {β : Type} (m l : List (Nat × β)) :
    mapKeys (m ++ l) = mapKeys m ++ mapKeys l := by
  simp [mapKeys]

/-- The keys of a map filtered by key. -/
theorem mapKeys_filter {β : Type} (m : List (Nat × β)) (p : Nat → Bool) :
    mapKeys (m.filter (fun e => p e.1)) = (mapKeys m).filter p := by
  induction m with
  | nil => rfl
  | cons e m ih =>
    by_cases h : p e.1 = true
    · simp [mapKeys, List.filter_cons, h] at ih ⊢
      exact ih
    · simp [mapKeys, List.filter_cons, h] at ih ⊢
      exact ih

/-- A `get` finds nothing exactly for a key that is absent. -/
theorem mapGet_eq_none_iff {β : Type} (m : List (Nat × β)) (k : Nat) :
    mapGet m k = none ↔ k ∉ mapKeys m := by
  induction m with
  | nil => simp [mapGet, mapKeys]
  | cons e m ih =>
    obtain ⟨a, b⟩ := e
    by_cases h : k = a
    · subst h
      simp [mapGet, mapKeys, List.lookup]
    · have h2 : (k == a) = false := by simpa using h
      simp only [mapGet, mapKeys, List.lookup, h2, List.map_cons, List.mem_cons, h, false_or] at ih ⊢
      exact ih

/-- A `get` finds a value exactly for a key that is present. -/
theorem mapGet_isSome_iff {β : Type} (m : List (Nat × β)) (k : Nat) :
    (mapGet m k).isSome = true ↔ k ∈ mapKeys m := by
  rw [← not_iff_not, ← mapGet_eq_none_iff]
  cases mapGet m k <;> simp

/-- A `set` of a new key appends the entry. -/
theorem mapSet_of_not_mem {β : Type} (m : List (Nat × β)) (k : Nat) (v : β)
    (h : k ∉ mapKeys m) : mapSet m k v = m ++ [(k, v)] := by
  simp [mapSet, h]

/-- Entries added at the end do not change the value of a present key. -/
theorem mapGet_append_of_mem {β : Type} (m l : List (Nat × β)) (k : Nat)
    (h : k ∈ mapKeys m) : mapGet (m ++ l) k = mapGet m k := by
  induction m with
  | nil => simp [mapKeys] at h
  | cons e m ih =>
    obtain ⟨a, b⟩ := e
    by_cases hk : k = a
    · subst hk
      simp [mapGet, List.lookup]
    · have h2 : (k == a) = false := by simpa using hk
      have hm : k ∈ mapKeys m := by
        simpa [mapKeys, hk] using h
      simpa [mapGet, List.lookup, h2] using ih hm

/-- A key absent from the front is looked up in what was added. -/
theorem mapGet_append_of_not_mem {β : Type} (m l : List (Nat × β)) (k : Nat)
    (h : k ∉ mapKeys m) : mapGet (m ++ l) k = mapGet l k := by
  induction m with
  | nil => rfl
  | cons e m ih =>
    obtain ⟨a, b⟩ := e
    have hk : ¬ k = a := by
      intro e
      apply h
      simp [mapKeys, e]
    have h2 : (k == a) = false := by simpa using hk
    have hm : k ∉ mapKeys m := by
      intro hm
      apply h
      simp [mapKeys] at hm ⊢
      exact Or.inr hm
    simpa [mapGet, List.lookup, h2] using ih hm

/-- A `get` in a map filtered by key. -/
theorem mapGet_filter {β : Type} (m : List (Nat × β)) (p : Nat → Bool) (k : Nat) :
    mapGet (m.filter (fun e => p e.1)) k = if p k = true then mapGet m k else none := by
  induction m with
  | nil => simp [mapGet, List.lookup]
  | cons e m ih =>
    obtain ⟨a, b⟩ := e
    by_cases hk : k = a
    · subst hk
      by_cases hp : p k = true
      · simp [mapGet, List.filter_cons, hp, List.lookup]
      · simp only [mapGet] at ih
        simp [mapGet, List.filter_cons, hp, ih]
    · have h2 : (k == a) = false := by simpa using hk
      simp only [mapGet] at ih
      by_cases hp : p a = true
      · simp [mapGet, List.filter_cons, hp, List.lookup, h2, ih]
      · simp [mapGet, List.filter_cons, hp, List.lookup, h2, ih]

/-- The surviving entries when the cleanup loop passes an id that is a row id. -/
theorem keep_pred (ids : List Nat) (es : List (Nat × Nat)) (e x : Nat × Nat)
    (he : e.1 ∈ ids) :
    decide (x.1 ∈ ids ∨ x.1 ∉ mapKeys es) = decide (x.1 ∈ ids ∨ x.1 ∉ mapKeys (e :: es)) := by
  apply decide_eq_decide.2
  simp only [mapKeys, List.map_cons, List.mem_cons, not_or]
  constructor
  · rintro (h | h)
    · exact Or.inl h
    · by_cases hx : x.1 = e.1
      · exact Or.inl (hx ▸ he)
      · exact Or.inr ⟨hx, h⟩
  · rintro (h | h)
    · exact Or.inl h
    · exact Or.inr h.2

/-- The surviving entries when the cleanup loop deletes an id. -/
theorem drop_pred (ids : List Nat) (es : List (Nat × Nat)) (e x : Nat × Nat)
    (he : e.1 ∉ ids) :
    (decide (x.1 ∈ ids ∨ x.1 ∉ mapKeys es) && decide (x.1 ≠ e.1))
      = decide (x.1 ∈ ids ∨ x.1 ∉ mapKeys (e :: es)) := by
  rw [← Bool.decide_and]
  apply decide_eq_decide.2
  simp only [mapKeys, List.map_cons, List.mem_cons, not_or]
  constructor
  · rintro ⟨h | h, hx⟩
    · exact Or.inl h
    · exact Or.inr ⟨hx, h⟩
  · rintro (h | h)
    · exact ⟨Or.inl h, fun hx => he (hx ▸ h)⟩
    · exact ⟨Or.inr h.2, h.1⟩

/-- What the cleanup loop of `render` leaves, in closed form. -/
theorem cleanup_fold (ids : List Nat) (es : List (Nat × Nat)) (h : Handles) :
    (es.foldl (cleanupStep ids) h).nodeById
        = h.nodeById.filter (fun x => decide (x.1 ∈ ids ∨ x.1 ∉ mapKeys es)) ∧
    (es.foldl (cleanupStep ids) h).refsById
        = h.refsById.filter (fun x => decide (x.1 ∈ ids ∨ x.1 ∉ mapKeys es)) ∧
    (es.foldl (cleanupStep ids) h).destroyed
        = h.destroyed ++ (mapKeys es).filter (fun k => decide (k ∉ ids)) ∧
    (es.foldl (cleanupStep ids) h).nextNode = h.nextNode ∧
    (es.foldl (cleanupStep ids) h).frag = h.frag ∧
    (es.foldl (cleanupStep ids) h).created = h.created := by
  induction es generalizing h with
  | nil => simp [mapKeys]
  | cons e es ih =>
    rw [List.foldl_cons]
    obtain ⟨i1, i2, i3, i4, i5, i6⟩ := ih (cleanupStep ids h e)
    rw [i1, i2, i3, i4, i5, i6]
    clear ih i1 i2 i3 i4 i5 i6
    by_cases he : e.1 ∈ ids
    · have hs : cleanupStep ids h e = h := by simp [cleanupStep, he]
      rw [hs]
      refine ⟨?_, ?_, ?_, rfl, rfl, rfl⟩
      · exact List.filter_congr (fun x _ => keep_pred ids es e x he)
      · exact List.filter_congr (fun x _ => keep_pred ids es e x he)
      · simp [mapKeys, List.filter_cons, he]
    · have hn : (cleanupStep ids h e).nodeById = mapDelete h.nodeById e.1 := by
        simp [cleanupStep, he]
      have hr : (cleanupStep ids h e).refsById = mapDelete h.refsById e.1 := by
        simp [cleanupStep, he]
      have hd : (cleanupStep ids h e).destroyed = h.destroyed ++ [e.1] := by
        simp [cleanupStep, he]
      have h4 : (cleanupStep ids h e).nextNode = h.nextNode := by simp [cleanupStep, he]
      have h5 : (cleanupStep ids h e).frag = h.frag := by simp [cleanupStep, he]
      have h6 : (cleanupStep ids h e).created = h.created := by simp [cleanupStep, he]
      rw [hn, hr, hd, h4, h5, h6]
      refine ⟨?_, ?_, ?_, rfl, rfl, rfl⟩
      · rw [mapDelete, List.filter_filter]
        exact List.filter_congr (fun x _ => drop_pred ids es e x he)
      · rw [mapDelete, List.filter_filter]
        exact List.filter_congr (fun x _ => drop_pred ids es e x he)
      · simp [mapKeys, List.filter_cons, he]


/-- One turn of `rows.forEach` for a row that has a handle. -/
theorem placeStep_some (h : Handles) (r : DerivedRow) (li : Nat)
    (hg : mapGet h.nodeById r.id = some li) :
    placeStep h r = { h with frag := appendChild h.frag li } := by
  simp [placeStep, hg]

/-- One turn of `rows.forEach` for a row that has no handle. -/
theorem placeStep_none (h : Handles) (r : DerivedRow)
    (hg : mapGet h.nodeById r.id = none)
    (hk : mapKeys h.refsById = mapKeys h.nodeById) :
    placeStep h r =
      { h with
        nextNode := h.nextNode + 1
        refsById := h.refsById ++ [(r.id, h.nextNode)]
        created := h.created ++ [r.id]
        nodeById := h.nodeById ++ [(r.id, h.nextNode)]
        frag := appendChild h.frag h.nextNode } := by
  have hn : r.id ∉ mapKeys h.nodeById := (mapGet_eq_none_iff _ _).1 hg
  have hr : r.id ∉ mapKeys h.refsById := hk ▸ hn
  simp [placeStep, hg, buildRowNode, mapSet_of_not_mem _ _ _ hn, mapSet_of_not_mem _ _ _ hr]

/-- The children of the fragment after `appendChild`. -/
theorem mem_appendChild (frag : List Nat) (li n : Nat) :
    n ∈ appendChild frag li ↔ n ∈ frag ∨ n = li := by
  unfold appendChild
  by_cases h : n = li
  · simp [h]
  · simp [h, List.mem_erase_of_ne h]

/-- What `rows.forEach` of `render` leaves: the maps grow by the same new
entries, one for each row id that had no handle. -/
theorem place_fold (rs : List DerivedRow) (h : Handles)
    (hk : mapKeys h.refsById = mapKeys h.nodeById) :
    ∃ new : List (Nat × Nat),
      (rs.foldl placeStep h).nodeById = h.nodeById ++ new ∧
      (rs.foldl placeStep h).refsById = h.refsById ++ new ∧
      (rs.foldl placeStep h).created = h.created ++ mapKeys new ∧
      (rs.foldl placeStep h).destroyed = h.destroyed ∧
      (mapKeys new).Nodup ∧
      (∀ k, k ∈ mapKeys new ↔ k ∈ rs.map (fun r => r.id) ∧ k ∉ mapKeys h.nodeById) := by
  induction rs generalizing h with
  | nil => exact ⟨[], by simp [mapKeys]⟩
  | cons r rs ih =>
    rw [List.foldl_cons]
    cases hg : mapGet h.nodeById r.id with
    | some li =>
      have hin : r.id ∈ mapKeys h.nodeById := by
        rw [← mapGet_isSome_iff, hg]
        rfl
      rw [placeStep_some h r li hg]
      obtain ⟨new, e1, e2, e3, e4, e5, e6⟩ :=
        ih { h with frag := appendChild h.frag li } hk
      refine ⟨new, e1, e2, e3, e4, e5, ?_⟩
      intro k
      rw [e6 k]
      simp only [List.map_cons, List.mem_cons]
      constructor
      · rintro ⟨a, b⟩
        exact ⟨Or.inr a, b⟩
      · rintro ⟨a | a, b⟩
        · exact absurd (a ▸ hin) b
        · exact ⟨a, b⟩
    | none =>
      have hn : r.id ∉ mapKeys h.nodeById := (mapGet_eq_none_iff _ _).1 hg
      rw [placeStep_none h r hg hk]
      obtain ⟨new, e1, e2, e3, e4, e5, e6⟩ :=
        ih { h with
             nextNode := h.nextNode + 1
             refsById := h.refsById ++ [(r.id, h.nextNode)]
             created := h.created ++ [r.id]
             nodeById := h.nodeById ++ [(r.id, h.nextNode)]
             frag := appendChild h.frag h.nextNode }
          (by simp [mapKeys_append, hk])
      refine ⟨(r.id, h.nextNode) :: new, ?_, ?_, ?_, e4, ?_, ?_⟩
      · rw [e1]
        simp
      · rw [e2]
        simp
      · rw [e3]
        simp [mapKeys]
      · have : r.id ∉ mapKeys new := by
          intro hm
          have := ((e6 r.id).1 hm).2
          apply this
          simp [mapKeys]
        simpa [mapKeys] using And.intro this e5
      · intro k
        have e6k := e6 k
        simp only [mapKeys, List.map_cons, List.mem_cons, List.map_append, List.mem_append,
          List.map_nil, List.mem_singleton, not_or] at e6k ⊢
        rw [e6k]
        constructor
        · rintro (a | ⟨a, b, _⟩)
          · exact ⟨Or.inl a, a ▸ (by simpa [mapKeys] using hn)⟩
          · exact ⟨Or.inr a, b⟩
        · rintro ⟨a | a, b⟩
          · exact Or.inl a
          · by_cases hk2 : k = r.id
            · exact Or.inl hk2
            · exact Or.inr ⟨a, b, hk2, List.not_mem_nil _⟩


/-- Sorting keeps the item ids of the rows. -/
theorem mem_sortedRows_ids (lc : String → String → Int) (sourceKey scope sortMode : String)
    (rows : List Row) (k : Nat) :
    k ∈ (sortedRows lc sourceKey scope sortMode rows).map (fun r => r.id)
      ↔ k ∈ rows.map (fun r => r.id) := by
  have hp : (sortedRows lc sourceKey scope sortMode rows).Perm
      (rows.map (deriveRow sourceKey scope)) := List.perm_insertionSort _ _
  rw [(hp.map (fun r => r.id)).mem_iff]
  simp [deriveRow]

/-- The handle maps after the two loops of `render`, in closed form: the
entries whose id is still a row id, followed by one new entry for each row id
that had no handle. -/
theorem reconcile_handles (st : AppState) (rows : List DerivedRow)
    (hk : mapKeys st.refsById = mapKeys st.nodeById) :
    ∃ new : List (Nat × Nat),
      (reconcile st rows).nodeById
        = st.nodeById.filter (fun x => decide (x.1 ∈ rows.map (fun r => r.id))) ++ new ∧
      (reconcile st rows).refsById
        = st.refsById.filter (fun x => decide (x.1 ∈ rows.map (fun r => r.id))) ++ new ∧
      (reconcile st rows).created = mapKeys new ∧
      (reconcile st rows).destroyed
        = (mapKeys st.nodeById).filter (fun k => decide (k ∉ rows.map (fun r => r.id))) ∧
      (mapKeys new).Nodup ∧
      (∀ k, k ∈ mapKeys new ↔
        k ∈ rows.map (fun r => r.id) ∧ k ∉ mapKeys st.nodeById) := by
  unfold reconcile
  simp only []
  obtain ⟨c1, c2, c3, _, _, c6⟩ := cleanup_fold (rows.map (fun r => r.id)) st.nodeById
    { nodeById := st.nodeById, refsById := st.refsById, nextNode := st.nextNode,
      resultsChildren := st.resultsChildren, frag := [], created := [], destroyed := [] }
  simp only [List.nil_append] at c1 c2 c3 c6
  generalize List.foldl (cleanupStep (rows.map (fun r => r.id)))
    { nodeById := st.nodeById, refsById := st.refsById, nextNode := st.nextNode,
      resultsChildren := st.resultsChildren, frag := [], created := [], destroyed := [] }
    st.nodeById = h1 at c1 c2 c3 c6 ⊢
  have f1 : List.filter (fun x => decide (x.1 ∈ rows.map (fun r => r.id) ∨
        x.1 ∉ mapKeys st.nodeById)) st.nodeById
      = st.nodeById.filter (fun x => decide (x.1 ∈ rows.map (fun r => r.id))) := by
    apply List.filter_congr
    intro x hx
    have : x.1 ∈ mapKeys st.nodeById := List.mem_map_of_mem Prod.fst hx
    apply decide_eq_decide.2
    constructor
    · rintro (a | a)
      · exact a
      · exact absurd this a
    · exact Or.inl
  have f2 : List.filter (fun x => decide (x.1 ∈ rows.map (fun r => r.id) ∨
        x.1 ∉ mapKeys st.nodeById)) st.refsById
      = st.refsById.filter (fun x => decide (x.1 ∈ rows.map (fun r => r.id))) := by
    apply List.filter_congr
    intro x hx
    have : x.1 ∈ mapKeys st.nodeById := hk ▸ List.mem_map_of_mem Prod.fst hx
    apply decide_eq_decide.2
    constructor
    · rintro (a | a)
      · exact a
      · exact absurd this a
    · exact Or.inl
  rw [f1] at c1
  rw [f2] at c2
  have hk1 : mapKeys h1.refsById = mapKeys h1.nodeById := by
    rw [c1, c2]
    have a1 := mapKeys_filter st.nodeById (fun k => decide (k ∈ rows.map (fun r => r.id)))
    have a2 := mapKeys_filter st.refsById (fun k => decide (k ∈ rows.map (fun r => r.id)))
    simp only [] at a1 a2
    rw [a1, a2, hk]
  obtain ⟨new, e1, e2, e3, e4, e5, e6⟩ :=
    place_fold rows h1 hk1
  rw [c1] at e1 e6
  rw [c2] at e2
  rw [c6] at e3
  rw [c3] at e4
  refine ⟨new, e1, e2, by simpa using e3, by simpa using e4, e5, ?_⟩
  intro k
  rw [e6 k]
  have a1 := mapKeys_filter st.nodeById (fun k => decide (k ∈ rows.map (fun r => r.id)))
  simp only [] at a1
  rw [a1]
  constructor
  · rintro ⟨a, b⟩
    refine ⟨a, fun hin => b ?_⟩
    exact List.mem_filter.2 ⟨hin, by simpa using a⟩
  · rintro ⟨a, b⟩
    exact ⟨a, fun hin => b (List.mem_filter.1 hin).1⟩


/-- After one turn of `rows.forEach` the row has a handle, which is in the
fragment, and the two maps still have the same keys. -/
theorem placeStep_spec (h : Handles) (r : DerivedRow)
    (hk : mapKeys h.refsById = mapKeys h.nodeById) :
    mapKeys (placeStep h r).refsById = mapKeys (placeStep h r).nodeById ∧
    ∃ li, mapGet (placeStep h r).nodeById r.id = some li ∧
      ∀ n, n ∈ (placeStep h r).frag ↔ n ∈ h.frag ∨ n = li := by
  cases hg : mapGet h.nodeById r.id with
  | some li =>
    rw [placeStep_some h r li hg]
    exact ⟨hk, li, hg, fun n => mem_appendChild _ _ _⟩
  | none =>
    have hn : r.id ∉ mapKeys h.nodeById := (mapGet_eq_none_iff _ _).1 hg
    rw [placeStep_none h r hg hk]
    refine ⟨by simp [mapKeys_append, hk], h.nextNode, ?_, fun n => mem_appendChild _ _ _⟩
    simp only []
    rw [mapGet_append_of_not_mem _ _ _ hn]
    simp [mapGet, List.lookup]

/-- The fragment after `rows.forEach` holds the handles of the rows. -/
theorem place_fold_frag (rs : List DerivedRow) (h : Handles)
    (hk : mapKeys h.refsById = mapKeys h.nodeById) (n : Nat) :
    n ∈ (rs.foldl placeStep h).frag ↔
      n ∈ h.frag ∨ ∃ r ∈ rs, mapGet (rs.foldl placeStep h).nodeById r.id = some n := by
  induction rs generalizing h with
  | nil => simp
  | cons r rs ih =>
    rw [List.foldl_cons]
    obtain ⟨hk1, li, hli, hfrag⟩ := placeStep_spec h r hk
    obtain ⟨new, e1, _⟩ := place_fold rs (placeStep h r) hk1
    have hin : r.id ∈ mapKeys (placeStep h r).nodeById := by
      rw [← mapGet_isSome_iff, hli]
      rfl
    have hfin : mapGet (rs.foldl placeStep (placeStep h r)).nodeById r.id = some li := by
      rw [e1, mapGet_append_of_mem _ _ _ hin, hli]
    rw [ih (placeStep h r) hk1, hfrag n]
    constructor
    · rintro ((a | a) | ⟨r2, hr2, a⟩)
      · exact Or.inl a
      · exact Or.inr ⟨r, List.mem_cons_self _ _, a ▸ hfin⟩
      · exact Or.inr ⟨r2, List.mem_cons_of_mem _ hr2, a⟩
    · rintro (a | ⟨r2, hr2, a⟩)
      · exact Or.inl (Or.inl a)
      · rcases List.mem_cons.1 hr2 with e | hr3
        · subst e
          rw [hfin] at a
          exact Or.inl (Or.inr (Option.some.inj a).symm)
        · exact Or.inr ⟨r2, hr3, a⟩

/-- The fragment after the two loops holds the handles of the rows. -/
theorem reconcile_frag (st : AppState) (rows : List DerivedRow)
    (hk : mapKeys st.refsById = mapKeys st.nodeById) (n : Nat) :
    n ∈ (reconcile st rows).frag ↔
      ∃ r ∈ rows, mapGet (reconcile st rows).nodeById r.id = some n := by
  unfold reconcile
  simp only []
  obtain ⟨c1, c2, _, _, c5, _⟩ := cleanup_fold (rows.map (fun r => r.id)) st.nodeById
    { nodeById := st.nodeById, refsById := st.refsById, nextNode := st.nextNode,
      resultsChildren := st.resultsChildren, frag := [], created := [], destroyed := [] }
  simp only [] at c1 c2 c5
  generalize List.foldl (cleanupStep (rows.map (fun r => r.id)))
    { nodeById := st.nodeById, refsById := st.refsById, nextNode := st.nextNode,
      resultsChildren := st.resultsChildren, frag := [], created := [], destroyed := [] }
    st.nodeById = h1 at c1 c2 c5 ⊢
  have hk1 : mapKeys h1.refsById = mapKeys h1.nodeById := by
    rw [c1, c2]
    have a1 := mapKeys_filter st.nodeById
      (fun k => decide (k ∈ rows.map (fun r => r.id) ∨ k ∉ mapKeys st.nodeById))
    have a2 := mapKeys_filter st.refsById
      (fun k => decide (k ∈ rows.map (fun r => r.id) ∨ k ∉ mapKeys st.nodeById))
    simp only [] at a1 a2
    rw [a1, a2, hk]
  rw [place_fold_frag rows h1 hk1 n, c5]
  simp

/-- Filtering a duplicate-free list by a test only `a` passes leaves `[a]`. -/
theorem filter_eq_singleton (l : List Nat) (p : Nat → Bool) (a : Nat) (hn : l.Nodup)
    (ha : a ∈ l) (hp : ∀ x ∈ l, p x = true ↔ x = a) : l.filter p = [a] := by
  induction l with
  | nil => simp at ha
  | cons b l ih =>
    have hb : b ∉ l := (List.nodup_cons.1 hn).1
    have hl : l.Nodup := (List.nodup_cons.1 hn).2
    by_cases hba : b = a
    · subst hba
      have h1 : p b = true := (hp b (List.mem_cons_self _ _)).2 rfl
      have h2 : l.filter p = [] := by
        rw [List.filter_eq_nil_iff]
        intro x hx hpx
        have := (hp x (List.mem_cons_of_mem _ hx)).1 hpx
        exact hb (this ▸ hx)
      simp [List.filter_cons, h1, h2]
    · have h1 : ¬ p b = true := fun h => hba ((hp b (List.mem_cons_self _ _)).1 h)
      have hal : a ∈ l := by
        rcases List.mem_cons.1 ha with e | e
        · exact absurd e.symm hba
        · exact e
      simp only [List.filter_cons, h1]
      exact ih hl hal (fun x hx => hp x (List.mem_cons_of_mem _ hx))

/-- A duplicate-free list whose only member is `a` is `[a]`. -/
theorem eq_singleton_of_nodup (l : List Nat) (a : Nat) (hn : l.Nodup)
    (hm : ∀ x, x ∈ l ↔ x = a) : l = [a] := by
  have h := filter_eq_singleton l (fun _ => true) a hn ((hm a).2 rfl)
    (fun x hx => ⟨fun _ => (hm x).1 hx, fun _ => rfl⟩)
  simpa using h

/-- The handle maps after one `render`, in closed form over the ids of `baseRows`. -/
theorem render_handles (lc : String → String → Int) (st : AppState)
    (hk : mapKeys st.refsById = mapKeys st.nodeById) :
    ∃ new : List (Nat × Nat),
      (render lc st).state.nodeById
        = st.nodeById.filter (fun x => decide (x.1 ∈ st.baseRows.map (fun r => r.id))) ++ new ∧
      (render lc st).state.refsById
        = st.refsById.filter (fun x => decide (x.1 ∈ st.baseRows.map (fun r => r.id))) ++ new ∧
      (render lc st).created = mapKeys new ∧
      (render lc st).destroyed
        = (mapKeys st.nodeById).filter (fun k => decide (k ∉ st.baseRows.map (fun r => r.id))) ∧
      (mapKeys new).Nodup ∧
      (∀ k, k ∈ mapKeys new ↔
        k ∈ st.baseRows.map (fun r => r.id) ∧ k ∉ mapKeys st.nodeById) := by
  have hmem := mem_sortedRows_ids lc (valueOr st.sourceValue "min")
    (valueOr st.scopeValue "world") (valueOr st.sortValue "factor") st.baseRows
  obtain ⟨new, e1, e2, e3, e4, e5, e6⟩ := reconcile_handles st
    (sortedRows lc (valueOr st.sourceValue "min") (valueOr st.scopeValue "world")
      (valueOr st.sortValue "factor") st.baseRows) hk
  refine ⟨new, ?_, ?_, e3, ?_, e5, ?_⟩
  · refine Eq.trans e1 ?_
    congr 1
    exact List.filter_congr (fun x _ => decide_eq_decide.2 (hmem x.1))
  · refine Eq.trans e2 ?_
    congr 1
    exact List.filter_congr (fun x _ => decide_eq_decide.2 (hmem x.1))
  · refine Eq.trans e4 ?_
    exact List.filter_congr (fun x _ => decide_eq_decide.2 (not_congr (hmem x)))
  · intro k
    rw [e6 k, hmem k]

/-- After `render` the keys of both handle maps are the row ids, each once. -/
theorem render_keys (lc : String → String → Int) (st : AppState) (hinv : HandlesInv st) :
    (mapKeys (render lc st).state.nodeById).Nodup ∧
    (∀ id, id ∈ mapKeys (render lc st).state.nodeById ↔
      id ∈ st.baseRows.map (fun r => r.id)) ∧
    mapKeys (render lc st).state.refsById = mapKeys (render lc st).state.nodeById := by
  obtain ⟨new, e1, e2, _, _, e5, e6⟩ := render_handles lc st hinv.2
  have a1 := mapKeys_filter st.nodeById
    (fun k => decide (k ∈ st.baseRows.map (fun r => r.id)))
  have a2 := mapKeys_filter st.refsById
    (fun k => decide (k ∈ st.baseRows.map (fun r => r.id)))
  simp only [] at a1 a2
  rw [e1, e2, mapKeys_append, mapKeys_append, a1, a2, hinv.2]
  refine ⟨?_, ?_, rfl⟩
  · rw [List.nodup_append]
    refine ⟨hinv.1.filter _, e5, ?_⟩
    intro x hx hx2
    exact ((e6 x).1 hx2).2 (List.mem_filter.1 hx).1
  · intro id
    rw [List.mem_append, e6 id, List.mem_filter]
    constructor
    · rintro (⟨_, b⟩ | ⟨a, _⟩)
      · simpa using b
      · exact a
    · intro h
      by_cases hin : id ∈ mapKeys st.nodeById
      · exact Or.inl ⟨hin, by simpa using h⟩
      · exact Or.inr ⟨h, hin⟩

/-- One `render` keeps the invariant of the handle maps. -/
theorem render_state_inv (lc : String → String → Int) (st : AppState) (hinv : HandlesInv st) :
    HandlesInv (render lc st).state :=
  ⟨(render_keys lc st hinv).1, (render_keys lc st hinv).2.2⟩

/-- The state before the first fetch satisfies the invariant of the handle maps. -/
theorem initialState_inv (catalog : Catalog) : HandlesInv (initialState catalog) :=
  ⟨List.nodup_nil, rfl⟩

/-- One `run` keeps the invariant of the handle maps, however its request ends. -/
theorem run_state_inv (lc : String → String → Int) (st : AppState) (outcome : FetchOutcome)
    (hinv : HandlesInv st) : HandlesInv (run lc st outcome) := by
  cases outcome with
  | rejected message => exact hinv
  | httpError code => exact hinv
  | ok results =>
    have hinv3 : HandlesInv { st with
        resultsChildren := [], status := "Fetching...", ctrlActive := true,
        controlsDisabled := true, baseRows := buildRows st.ITEM_DATA results } := hinv
    exact render_state_inv lc _ hinv3

/-- C4: one call of `render` deletes from both maps exactly the handles whose id
is not an id of the new rows, builds exactly one handle for each row id that had
none, and keeps the handle of every id present before and after.  Hence a
second `render` of the same rows (whatever the selectors) builds and deletes
nothing, and when the rows drop item X and add item Y exactly X's handle is
deleted and exactly Y's is built. -/
theorem render_reconciles (lc : String → String → Int) (st : AppState) (hinv : HandlesInv st) :
    ((render lc st).destroyed
      = (mapKeys st.nodeById).filter
          (fun k => decide (k ∉ st.baseRows.map (fun r => r.id)))) ∧
    (∀ id ∈ (render lc st).destroyed,
      mapGet (render lc st).state.nodeById id = none ∧
      mapGet (render lc st).state.refsById id = none) ∧
    ((render lc st).created.Nodup ∧
      ∀ id, id ∈ (render lc st).created ↔
        id ∈ st.baseRows.map (fun r => r.id) ∧ id ∉ mapKeys st.nodeById) ∧
    (∀ id ∈ (render lc st).created,
      (mapGet (render lc st).state.nodeById id).isSome = true ∧
      (mapGet (render lc st).state.refsById id).isSome = true) ∧
    (∀ id, id ∈ mapKeys st.nodeById → id ∈ st.baseRows.map (fun r => r.id) →
      mapGet (render lc st).state.nodeById id = mapGet st.nodeById id) ∧
    (∀ s c m : String,
      (render lc { (render lc st).state with
          sourceValue := s, scopeValue := c, sortValue := m }).created = [] ∧
      (render lc { (render lc st).state with
          sourceValue := s, scopeValue := c, sortValue := m }).destroyed = []) ∧
    (∀ X Y : Nat, X ∈ mapKeys st.nodeById → Y ∉ mapKeys st.nodeById →
      (∀ id, id ∈ st.baseRows.map (fun r => r.id) ↔
        (id ∈ mapKeys st.nodeById ∧ id ≠ X) ∨ id = Y) →
      (render lc st).destroyed = [X] ∧ (render lc st).created = [Y]) := by
  obtain ⟨new, e1, e2, e3, e4, e5, e6⟩ := render_handles lc st hinv.2
  obtain ⟨k1, k2, k3⟩ := render_keys lc st hinv
  have hcreated : ∀ id, id ∈ (render lc st).created ↔
      id ∈ st.baseRows.map (fun r => r.id) ∧ id ∉ mapKeys st.nodeById := by
    intro id
    rw [e3]
    exact e6 id
  refine ⟨e4, ?_, ⟨e3 ▸ e5, hcreated⟩, ?_, ?_, ?_, ?_⟩
  · intro id hid
    rw [e4, List.mem_filter] at hid
    have hnot : id ∉ st.baseRows.map (fun r => r.id) := by simpa using hid.2
    have hn : id ∉ mapKeys (render lc st).state.nodeById := fun h => hnot ((k2 id).1 h)
    exact ⟨(mapGet_eq_none_iff _ _).2 hn, (mapGet_eq_none_iff _ _).2 (k3 ▸ hn)⟩
  · intro id hid
    have hin : id ∈ mapKeys (render lc st).state.nodeById :=
      (k2 id).2 ((hcreated id).1 hid).1
    exact ⟨(mapGet_isSome_iff _ _).2 hin, (mapGet_isSome_iff _ _).2 (k3 ▸ hin)⟩
  · intro id hin hrow
    rw [e1]
    have a1 := mapKeys_filter st.nodeById
      (fun k => decide (k ∈ st.baseRows.map (fun r => r.id)))
    simp only [] at a1
    have hin2 : id ∈ mapKeys (st.nodeById.filter
        (fun x => decide (x.1 ∈ st.baseRows.map (fun r => r.id)))) := by
      rw [a1]
      exact List.mem_filter.2 ⟨hin, by simpa using hrow⟩
    rw [mapGet_append_of_mem _ _ _ hin2]
    have a3 := mapGet_filter st.nodeById
      (fun k => decide (k ∈ st.baseRows.map (fun r => r.id))) id
    simp only [] at a3
    rw [a3]
    simp [hrow]
  · intro s c m
    have hinv2 : HandlesInv { (render lc st).state with
        sourceValue := s, scopeValue := c, sortValue := m } := ⟨k1, k3⟩
    obtain ⟨new2, _, _, f3, f4, _, f6⟩ := render_handles lc { (render lc st).state with
        sourceValue := s, scopeValue := c, sortValue := m } hinv2.2
    have hb : ({ (render lc st).state with
        sourceValue := s, scopeValue := c, sortValue := m } : AppState).baseRows
        = st.baseRows := rfl
    simp only [hb] at f4 f6
    constructor
    · rw [f3]
      apply List.eq_nil_iff_forall_not_mem.2
      intro x hx
      exact ((f6 x).1 hx).2 ((k2 x).2 ((f6 x).1 hx).1)
    · rw [f4, List.filter_eq_nil_iff]
      intro x hx
      have : x ∈ st.baseRows.map (fun r => r.id) := (k2 x).1 hx
      simpa using this
  · intro X Y hX hY hrows
    constructor
    · rw [e4]
      apply filter_eq_singleton _ _ X hinv.1 hX
      intro x hx
      rw [decide_eq_true_iff, hrows x]
      constructor
      · intro h
        by_contra hne
        exact h (Or.inl ⟨hx, hne⟩)
      · rintro rfl
        rintro (⟨_, b⟩ | b)
        · exact b rfl
        · exact hY (b ▸ hx)
    · apply eq_singleton_of_nodup _ Y (e3 ▸ e5)
      intro x
      rw [hcreated x, hrows x]
      constructor
      · rintro ⟨(⟨a, _⟩ | a), b⟩
        · exact absurd a b
        · exact a
      · rintro rfl
        exact ⟨Or.inr rfl, hY⟩


/-- C5: after `render` the keys of `nodeById`, and of `refsById`, are exactly the
item ids of the current rows, each id once. -/
theorem render_handles_match_rows (lc : String → String → Int) (st : AppState)
    (hinv : HandlesInv st) :
    (render lc st).state.baseRows = st.baseRows ∧
    (mapKeys (render lc st).state.nodeById).Nodup ∧
    (∀ id, id ∈ mapKeys (render lc st).state.nodeById ↔
      id ∈ (render lc st).state.baseRows.map (fun r => r.id)) ∧
    mapKeys (render lc st).state.refsById = mapKeys (render lc st).state.nodeById :=
  ⟨rfl, render_keys lc st hinv⟩

/-- The example state satisfies the invariant of the handle maps. -/
theorem reconcileState_inv : HandlesInv reconcileState := ⟨by decide, rfl⟩

/-- C5 on the example state: the handles are those of items 2 and 3. -/
theorem render_handles_match_rows_example :
    HandlesInv reconcileState ∧
    (mapKeys (render codePointCompare reconcileState).state.nodeById).Nodup ∧
    (∀ id, id ∈ mapKeys (render codePointCompare reconcileState).state.nodeById ↔
      id ∈ (render codePointCompare reconcileState).state.baseRows.map (fun r => r.id)) ∧
    mapKeys (render codePointCompare reconcileState).state.nodeById = [2, 3] :=
  ⟨reconcileState_inv,
    (render_handles_match_rows codePointCompare reconcileState reconcileState_inv).2.1,
    (render_handles_match_rows codePointCompare reconcileState reconcileState_inv).2.2.1,
    by decide!⟩

/-- C4 on the example state: the rows drop item 1 and add item 3, so exactly the
handle of item 1 is deleted and exactly the handle of item 3 is built. -/
theorem render_reconciles_example :
    HandlesInv reconcileState ∧
    (render codePointCompare reconcileState).destroyed = [1] ∧
    (render codePointCompare reconcileState).created = [3] :=
  ⟨reconcileState_inv,
    (render_reconciles codePointCompare reconcileState reconcileState_inv).2.2.2.2.2.2
      1 3 (by decide!) (by decide!)
      (by
        intro id
        simp only [reconcileState, initialState, exampleRow, mapKeys, List.map_cons,
          List.map_nil, List.mem_cons, List.mem_singleton, List.not_mem_nil, or_false]
        omega)⟩

/-! ## Fetching -/

/-- C6 (amended): when the request of `run` fails, `baseRows` and both handle
maps are as before, the status is `Error: ` followed by the failure reason, the
controls are enabled again, and the displayed list is empty: `run` clears it
before it sends the request. -/
theorem run_failure (lc : String → String → Int) (st : AppState) :
    (∀ code : Nat,
      (run lc st (FetchOutcome.httpError code)).baseRows = st.baseRows ∧
      (run lc st (FetchOutcome.httpError code)).status
        = "Error: " ++ ("HTTP " ++ toString code) ∧
      (run lc st (FetchOutcome.httpError code)).nodeById = st.nodeById ∧
      (run lc st (FetchOutcome.httpError code)).refsById = st.refsById ∧
      (run lc st (FetchOutcome.httpError code)).resultsChildren = [] ∧
      (run lc st (FetchOutcome.httpError code)).controlsDisabled = false) ∧
    (∀ message : String,
      (run lc st (FetchOutcome.rejected message)).baseRows = st.baseRows ∧
      (run lc st (FetchOutcome.rejected message)).status = "Error: " ++ message ∧
      (run lc st (FetchOutcome.rejected message)).nodeById = st.nodeById ∧
      (run lc st (FetchOutcome.rejected message)).refsById = st.refsById ∧
      (run lc st (FetchOutcome.rejected message)).resultsChildren = [] ∧
      (run lc st (FetchOutcome.rejected message)).controlsDisabled = false) :=
  ⟨fun _ => ⟨rfl, rfl, rfl, rfl, rfl, rfl⟩, fun _ => ⟨rfl, rfl, rfl, rfl, rfl, rfl⟩⟩

/-- C6 as stated fails: after a fetch that displayed item 5057, a fetch answered
with HTTP 500 leaves the displayed list empty, not as it was. -/
theorem run_failure_clears_list :
    shownState.baseRows.map (fun r => r.id) = [5057] ∧
    shownState.resultsChildren = [0] ∧
    (run codePointCompare shownState (FetchOutcome.httpError 500)).resultsChildren = [] ∧
    (run codePointCompare shownState (FetchOutcome.httpError 500)).resultsChildren
      ≠ shownState.resultsChildren := by
  refine ⟨by decide!, by decide!, rfl, by decide!⟩


/-- The rows built by `run` have the item ids of the response, in its order. -/
theorem buildRows_ids (catalog : Catalog) (results : Option (List Entry)) :
    (buildRows catalog results).map (fun r => r.id)
      = (results.getD []).map (fun e => e.itemId) := by
  simp [buildRows, buildRow, List.map_map, Function.comp_def]

/-- Without catalog metadata the name of a row is `Item ` followed by its id. -/
theorem buildRow_placeholder (catalog : Catalog) (e : Entry)
    (h : catalog.lookup (idKey e.itemId) = none) :
    (buildRow catalog e).name = "Item " ++ idKey e.itemId := by
  simp [buildRow, h]

/-- The list displayed after `render` holds the handles of the row ids. -/
theorem render_displayed (lc : String → String → Int) (st : AppState)
    (hk : mapKeys st.refsById = mapKeys st.nodeById) (n : Nat) :
    n ∈ (render lc st).state.resultsChildren ↔
      ∃ id ∈ st.baseRows.map (fun r => r.id),
        mapGet (render lc st).state.nodeById id = some n := by
  have h := reconcile_frag st (sortedRows lc (valueOr st.sourceValue "min")
    (valueOr st.scopeValue "world") (valueOr st.sortValue "factor") st.baseRows) hk n
  have hmem := mem_sortedRows_ids lc (valueOr st.sourceValue "min")
    (valueOr st.scopeValue "world") (valueOr st.sortValue "factor") st.baseRows
  show n ∈ (reconcile st _).frag ↔ ∃ id ∈ _, mapGet (reconcile st _).nodeById id = some n
  rw [h]
  constructor
  · rintro ⟨r, hr, hg⟩
    exact ⟨r.id, (hmem r.id).1 (List.mem_map_of_mem _ hr), hg⟩
  · rintro ⟨id, hid, hg⟩
    obtain ⟨r, hr, rfl⟩ := List.mem_map.1 ((hmem id).2 hid)
    exact ⟨r, hr, hg⟩

/-- C7: after a successful fetch `baseRows` has one row per entry of the
response, with the entries' item ids in order; an entry without catalog
metadata is a row named `Item ` followed by its id; the handles, and the nodes
displayed, are those of exactly the response's item ids, so an id that the
response lacks is neither a row nor a handle, whatever the catalog holds. -/
theorem run_rows_from_response (lc : String → String → Int) (st : AppState)
    (results : Option (List Entry)) (hinv : HandlesInv st) :
    (run lc st (FetchOutcome.ok results)).baseRows = buildRows st.ITEM_DATA results ∧
    (run lc st (FetchOutcome.ok results)).baseRows.map (fun r => r.id)
      = (results.getD []).map (fun e => e.itemId) ∧
    (∀ e ∈ results.getD [],
      buildRow st.ITEM_DATA e ∈ (run lc st (FetchOutcome.ok results)).baseRows ∧
      (buildRow st.ITEM_DATA e).id = e.itemId ∧
      (st.ITEM_DATA.lookup (idKey e.itemId) = none →
        (buildRow st.ITEM_DATA e).name = "Item " ++ idKey e.itemId)) ∧
    (mapKeys (run lc st (FetchOutcome.ok results)).nodeById).Nodup ∧
    (∀ id, id ∈ mapKeys (run lc st (FetchOutcome.ok results)).nodeById ↔
      id ∈ (results.getD []).map (fun e => e.itemId)) ∧
    (∀ n, n ∈ (run lc st (FetchOutcome.ok results)).resultsChildren ↔
      ∃ id ∈ (results.getD []).map (fun e => e.itemId),
        mapGet (run lc st (FetchOutcome.ok results)).nodeById id = some n) ∧
    (∀ id, id ∉ (results.getD []).map (fun e => e.itemId) →
      id ∉ (run lc st (FetchOutcome.ok results)).baseRows.map (fun r => r.id) ∧
      mapGet (run lc st (FetchOutcome.ok results)).nodeById id = none) := by
  have hinv3 : HandlesInv { st with
      resultsChildren := [], status := "Fetching...", ctrlActive := true,
      controlsDisabled := true, baseRows := buildRows st.ITEM_DATA results } := hinv
  obtain ⟨k1, k2, _⟩ := render_keys lc _ hinv3
  have hd := render_displayed lc _ hinv3.2
  have hids := buildRows_ids st.ITEM_DATA results
  simp only [hids] at k2 hd
  refine ⟨rfl, hids, ?_, k1, k2, hd, ?_⟩
  · intro e he
    exact ⟨List.mem_map_of_mem _ he, rfl, buildRow_placeholder _ e⟩
  · intro id hid
    refine ⟨fun h => hid (hids ▸ h), ?_⟩
    exact (mapGet_eq_none_iff _ _).2 (fun h => hid ((k2 id).1 h))

/-- C7, the example of the specification: the catalog holds 5057 and 5058, the
response only 5057, and only 5057 is a row and a handle; an id the catalog
lacks is named by the placeholder. -/
theorem run_rows_from_response_example :
    HandlesInv (initialState exampleCatalog) ∧
    (run codePointCompare (initialState exampleCatalog)
      (FetchOutcome.ok (some [exampleEntry 5057 (finVal 250)]))).baseRows.map (fun r => r.id)
      = [5057] ∧
    (∀ id, id ∈ mapKeys (run codePointCompare (initialState exampleCatalog)
        (FetchOutcome.ok (some [exampleEntry 5057 (finVal 250)]))).nodeById ↔
      id ∈ [5057]) ∧
    (buildRow exampleCatalog (exampleEntry 7 Val.null)).name = "Item 7" :=
  ⟨⟨by decide!, rfl⟩,
    (run_rows_from_response codePointCompare (initialState exampleCatalog)
      (some [exampleEntry 5057 (finVal 250)]) ⟨by decide!, rfl⟩).2.1,
    (run_rows_from_response codePointCompare (initialState exampleCatalog)
      (some [exampleEntry 5057 (finVal 250)]) ⟨by decide!, rfl⟩).2.2.2.2.1,
    by decide!⟩


/-! ## The directory -/

/-- Scanning a concatenation is scanning its parts in turn. -/
theorem firstSeenFrom_append {α : Type} [DecidableEq α] (seen l₁ l₂ : List α) :
    firstSeenFrom seen (l₁ ++ l₂) = firstSeenFrom (firstSeenFrom seen l₁) l₂ := by
  simp [firstSeenFrom, List.foldl_append]

/-- Scanning nothing leaves the seen items. -/
theorem firstSeenFrom_nil {α : Type} [DecidableEq α] (seen : List α) :
    firstSeenFrom seen [] = seen := rfl

/-- Scanning one item adds it unless it was seen. -/
theorem firstSeenFrom_singleton {α : Type} [DecidableEq α] (seen : List α) (x : α) :
    firstSeenFrom seen [x] = if x ∈ seen then seen else seen ++ [x] := rfl

/-- Scanning keeps the seen items free of repetitions. -/
theorem firstSeenFrom_nodup {α : Type} [DecidableEq α] (seen l : List α) (h : seen.Nodup) :
    (firstSeenFrom seen l).Nodup := by
  induction l generalizing seen with
  | nil => exact h
  | cons x l ih =>
    show (firstSeenFrom (if x ∈ seen then seen else seen ++ [x]) l).Nodup
    apply ih
    by_cases hx : x ∈ seen
    · simpa [hx] using h
    · simp only [hx, if_false]
      rw [List.nodup_append]
      refine ⟨h, List.nodup_singleton x, ?_⟩
      intro y hy hy2
      exact hx ((List.mem_singleton.1 hy2) ▸ hy)

/-- After a scan the seen items are the old ones and the scanned ones. -/
theorem mem_firstSeenFrom {α : Type} [DecidableEq α] (seen l : List α) (y : α) :
    y ∈ firstSeenFrom seen l ↔ y ∈ seen ∨ y ∈ l := by
  induction l generalizing seen with
  | nil => simp [firstSeenFrom]
  | cons x l ih =>
    show y ∈ firstSeenFrom (if x ∈ seen then seen else seen ++ [x]) l ↔ _
    rw [ih]
    by_cases hx : x ∈ seen
    · simp only [hx, if_true, List.mem_cons]
      constructor
      · rintro (a | a)
        · exact Or.inl a
        · exact Or.inr (Or.inr a)
      · rintro (a | a | a)
        · exact Or.inl a
        · exact Or.inl (a ▸ hx)
        · exact Or.inr a
    · simp only [hx, if_false, List.mem_append, List.mem_singleton, List.mem_cons]
      tauto

/-- The test `seen.has(x)` on a member. -/
theorem contains_true_of_mem (l : List String) (s : String) (h : s ∈ l) :
    l.contains s = true :=
  List.elem_iff.2 h

/-- The test `seen.has(x)` on a non-member. -/
theorem contains_false_of_not_mem (l : List String) (s : String) (h : s ∉ l) :
    l.contains s = false := by
  cases hc : l.contains s with
  | false => rfl
  | true => exact absurd (List.elem_iff.1 hc) h

/-- The region statement of the loop keeps the invariant. -/
theorem emitRegion_inv (acc : DirAcc) (t : List (NameKind × String)) (x : Option String)
    (h : DirInv acc t) :
    DirInv (emitRegion acc x)
      (firstSeenFrom t (match x with
        | some s => if s ≠ "" then [(NameKind.region, s)] else []
        | none => [])) := by
  cases x with
  | none => exact h
  | some s =>
    by_cases hs : s = ""
    · simpa [emitRegion, truthyStr, hs, firstSeenFrom_nil] using h
    · by_cases hm : s ∈ acc.seenRegion
      · have hm2 : (NameKind.region, s) ∈ t := (h.region s).1 hm
        have hc := contains_true_of_mem _ _ hm
        simp only [emitRegion, truthyStr, hc, ne_eq, hs, not_false_eq_true, decide_True,
          Bool.not_true, Bool.and_false, if_false, if_true, firstSeenFrom_singleton, hm2]
        exact h
      · have hm2 : (NameKind.region, s) ∉ t := fun c => hm ((h.region s).2 c)
        have hc := contains_false_of_not_mem _ _ hm
        simp only [emitRegion, truthyStr, hc, ne_eq, hs, not_false_eq_true, decide_True,
          Bool.not_false, Bool.and_self, if_true, if_false, firstSeenFrom_singleton, hm2]
        constructor
        · simp [h.out]
        · intro s2
          simp [h.region s2]
        · intro s2
          simp [h.datacenter s2]
        · intro s2
          simp [h.world s2]

/-- The datacenter statement of the loop keeps the invariant. -/
theorem emitDC_inv (acc : DirAcc) (t : List (NameKind × String)) (x : Option String)
    (h : DirInv acc t) :
    DirInv (emitDC acc x)
      (firstSeenFrom t (match x with
        | some s => if s ≠ "" then [(NameKind.datacenter, s)] else []
        | none => [])) := by
  cases x with
  | none => exact h
  | some s =>
    by_cases hs : s = ""
    · simpa [emitDC, truthyStr, hs, firstSeenFrom_nil] using h
    · by_cases hm : s ∈ acc.seenDC
      · have hm2 : (NameKind.datacenter, s) ∈ t := (h.datacenter s).1 hm
        have hc := contains_true_of_mem _ _ hm
        simp only [emitDC, truthyStr, hc, ne_eq, hs, not_false_eq_true, decide_True,
          Bool.not_true, Bool.and_false, if_false, if_true, firstSeenFrom_singleton, hm2]
        exact h
      · have hm2 : (NameKind.datacenter, s) ∉ t := fun c => hm ((h.datacenter s).2 c)
        have hc := contains_false_of_not_mem _ _ hm
        simp only [emitDC, truthyStr, hc, ne_eq, hs, not_false_eq_true, decide_True,
          Bool.not_false, Bool.and_self, if_true, if_false, firstSeenFrom_singleton, hm2]
        constructor
        · simp [h.out]
        · intro s2
          simp [h.region s2]
        · intro s2
          simp [h.datacenter s2]
        · intro s2
          simp [h.world s2]

/-- One turn of the inner loop keeps the invariant. -/
theorem emitWorld_inv (worldById : List (Nat × Option String)) (acc : DirAcc)
    (t : List (NameKind × String)) (wid : Nat) (h : DirInv acc t) :
    DirInv (emitWorld worldById acc wid)
      (firstSeenFrom t (match (mapGet worldById wid).join with
        | some s => if s ≠ "" then [(NameKind.world, s)] else []
        | none => [])) := by
  unfold emitWorld
  cases (mapGet worldById wid).join with
  | none => exact h
  | some s =>
    by_cases hs : s = ""
    · simpa [truthyStr, hs, firstSeenFrom_nil] using h
    · by_cases hm : s ∈ acc.seenWorld
      · have hm2 : (NameKind.world, s) ∈ t := (h.world s).1 hm
        have hc := contains_true_of_mem _ _ hm
        simp only [truthyStr, hc, ne_eq, hs, not_false_eq_true, decide_True,
          Bool.not_true, Bool.and_false, if_false, if_true, firstSeenFrom_singleton, hm2]
        exact h
      · have hm2 : (NameKind.world, s) ∉ t := fun c => hm ((h.world s).2 c)
        have hc := contains_false_of_not_mem _ _ hm
        simp only [truthyStr, hc, ne_eq, hs, not_false_eq_true, decide_True,
          Bool.not_false, Bool.and_self, if_true, if_false, firstSeenFrom_singleton, hm2]
        constructor
        · simp [h.out]
        · intro s2
          simp [h.region s2]
        · intro s2
          simp [h.datacenter s2]
        · intro s2
          simp [h.world s2]

/-- The inner loop over the worlds keeps the invariant. -/
theorem worlds_inv (worldById : List (Nat × Option String)) (wids : List Nat) (acc : DirAcc)
    (t : List (NameKind × String)) (h : DirInv acc t) :
    DirInv (wids.foldl (emitWorld worldById) acc)
      (firstSeenFrom t (wids.flatMap (fun wid =>
        match (mapGet worldById wid).join with
        | some s => if s ≠ "" then [(NameKind.world, s)] else []
        | none => []))) := by
  induction wids generalizing acc t with
  | nil => exact h
  | cons wid wids ih =>
    rw [List.foldl_cons, List.flatMap_cons, firstSeenFrom_append]
    exact ih _ _ (emitWorld_inv worldById acc t wid h)

/-- One turn of the loop over the datacenters keeps the invariant. -/
theorem directoryStep_inv (worldById : List (Nat × Option String)) (acc : DirAcc)
    (t : List (NameKind × String)) (dc : Datacenter) (h : DirInv acc t) :
    DirInv (directoryStep worldById acc dc)
      (firstSeenFrom t (discoveredIn worldById dc)) := by
  unfold directoryStep discoveredIn
  rw [firstSeenFrom_append, firstSeenFrom_append]
  exact worlds_inv worldById _ _ _ (emitDC_inv _ _ dc.name (emitRegion_inv acc t dc.region h))

/-- The loop over the datacenters keeps the invariant. -/
theorem directory_fold_inv (worldById : List (Nat × Option String)) (dcArr : List Datacenter)
    (acc : DirAcc) (t : List (NameKind × String)) (h : DirInv acc t) :
    DirInv (dcArr.foldl (directoryStep worldById) acc)
      (firstSeenFrom t (discovered worldById dcArr)) := by
  induction dcArr generalizing acc t with
  | nil => exact h
  | cons dc dcArr ih =>
    rw [List.foldl_cons]
    unfold discovered
    rw [List.flatMap_cons, firstSeenFrom_append]
    exact ih _ _ (directoryStep_inv worldById acc t dc h)

/-- C10 (amended): the list `loadDirectory` builds is de-duplicated within each
kind of name: it is the sequence of names discovered while scanning the
datacenters in response order (region, datacenter name, resolvable world names),
each pair of kind and name kept at its first occurrence only; it has no
repeated string when no string is discovered under two kinds. -/
theorem loadDirectory_first_seen_per_kind (dcArr : List Datacenter) (worldArr : List World) :
    loadDirectory dcArr worldArr
      = (firstOccurrences (discovered (worldByIdMap worldArr) dcArr)).map Prod.snd ∧
    (firstOccurrences (discovered (worldByIdMap worldArr) dcArr)).Nodup ∧
    (∀ x, x ∈ firstOccurrences (discovered (worldByIdMap worldArr) dcArr) ↔
      x ∈ discovered (worldByIdMap worldArr) dcArr) ∧
    ((∀ k₁ k₂ s, (k₁, s) ∈ discovered (worldByIdMap worldArr) dcArr →
        (k₂, s) ∈ discovered (worldByIdMap worldArr) dcArr → k₁ = k₂) →
      (loadDirectory dcArr worldArr).Nodup) := by
  have h0 : DirInv { seenRegion := [], seenDC := [], seenWorld := [], out := [] } [] :=
    ⟨rfl, by simp, by simp, by simp⟩
  have h := directory_fold_inv (worldByIdMap worldArr) dcArr _ _ h0
  have hout : loadDirectory dcArr worldArr
      = (firstOccurrences (discovered (worldByIdMap worldArr) dcArr)).map Prod.snd := h.out
  have hnd : (firstOccurrences (discovered (worldByIdMap worldArr) dcArr)).Nodup :=
    firstSeenFrom_nodup [] _ List.nodup_nil
  have hmem : ∀ x, x ∈ firstOccurrences (discovered (worldByIdMap worldArr) dcArr) ↔
      x ∈ discovered (worldByIdMap worldArr) dcArr := by
    intro x
    unfold firstOccurrences
    rw [mem_firstSeenFrom]
    simp
  refine ⟨hout, hnd, hmem, ?_⟩
  intro hdis
  rw [hout]
  refine List.Nodup.map_on ?_ hnd
  rintro ⟨k₁, s₁⟩ h₁ ⟨k₂, s₂⟩ h₂ he
  simp only at he
  subst he
  rw [hdis k₁ k₂ s₁ ((hmem _).1 h₁) ((hmem _).1 h₂)]

/-- C10 as stated fails: a datacenter that has the name of its region puts that
string in the list twice. -/
theorem loadDirectory_repeats_name :
    loadDirectory [{ name := some "Europe", region := some "Europe", worlds := some [] }] []
      = ["Europe", "Europe"] ∧
    ¬ (loadDirectory
        [{ name := some "Europe", region := some "Europe", worlds := some [] }] []).Nodup := by
  decide

/-- C10 (amended) on the example: the region once, then each datacenter followed
by its worlds not yet listed. -/
theorem loadDirectory_example :
    loadDirectory exampleDatacenters exampleWorlds
      = (firstOccurrences
          (discovered (worldByIdMap exampleWorlds) exampleDatacenters)).map Prod.snd ∧
    loadDirectory exampleDatacenters exampleWorlds
      = ["Europe", "Chaos", "Cerberus", "Louisoix", "Light", "Odin"] :=
  ⟨(loadDirectory_first_seen_per_kind exampleDatacenters exampleWorlds).1, by decide⟩


end CowriePricer
